import Mathlib

/-!
# SnakeGame: a verification development of `src/main.cpp`

The game core of `main.cpp` is embedded as pure functions over explicit state.

* C++ `int` values (coordinates, `size`, `moved`, the score) are `Int`; the
  development covers executions in which no signed `int` overflows.
* `unsigned char` values are `Nat`; every store into `tail` is reduced modulo 256.
* Array reads and writes return `Option`: an index outside the array is `none`.
* The display, the EEPROM, the serial line and the random source are collaborators
  that `main.cpp` only calls.  The display is a pixel grid with clipping `fillRect`
  and `getPixel`; every call made to a collaborator is recorded in a log.
-/

namespace SnakeGame

/-! ## Constants (main.cpp lines 7-13) -/

def SCREEN_WIDTH : Int := 128

def SCREEN_HEIGHT : Int := 64

def kGameWidth : Nat := 64

def kGameHeight : Nat := 32

def kMaxLength : Nat := 464

def kStartLength : Int := 6

/-! ## Position (main.cpp lines 15-25) -/

structure Position where
  x : Int
  y : Int
deriving DecidableEq

/-- The result of `operator+=`: componentwise sum. -/
def Position.add (a b : Position) : Position :=
  { x := a.x + b.x, y := a.y + b.y }

/-! ## Collaborators: display, EEPROM, timing, input -/

inductive Color where
  | BLACK
  | WHITE
deriving DecidableEq

/-- The three bitmaps of `bitmap.h` that `main.cpp` blits. -/
inductive Bitmap where
  | StartGame
  | WinGame
  | GameOver
deriving DecidableEq

/-- The string literals that `main.cpp` prints. -/
inductive Text where
  | pressAnyButton
  | score
  | newHighScore
  | highScore
deriving DecidableEq

/-- One call made by `main.cpp` to a collaborator. -/
inductive Call where
  | fillRect (x y w h : Int) (c : Color)
  | clearDisplay
  | drawBitmap (b : Bitmap)
  | setCursor (x y : Int)
  | printText (t : Text)
  | printInt (n : Int)
  | display
  | invertDisplay (b : Bool)
  | delay (ms : Nat)
  | waitInput
  | eepromPut (v : Int)
deriving DecidableEq

abbrev Pixels := Int → Int → Bool

/-- Modelled from the spec: the state of the collaborators of section 6.  The field
`pixels` is the display buffer, `eeprom` the integer stored in slot 0, `log` the calls
received so far (most recent first), and `raster` the pixels that a bitmap blit or a
text print produces, which depend on `bitmap.h` and on the font and are left open. -/
structure Device where
  pixels : Pixels
  eeprom : Int
  log : List Call
  raster : List Call → Call → Pixels → Pixels

/-- Modelled from the spec: `display.fillRect(x, y, w, h, color)` sets every pixel of
the rectangle that lies on the 128x64 screen to the colour. -/
def Device.fillRect (d : Device) (x y w h : Int) (c : Color) : Device :=
  { d with
    pixels := fun px py =>
      if x ≤ px ∧ px < x + w ∧ y ≤ py ∧ py < y + h ∧
          0 ≤ px ∧ px < SCREEN_WIDTH ∧ 0 ≤ py ∧ py < SCREEN_HEIGHT then
        decide (c = Color.WHITE)
      else d.pixels px py
    log := Call.fillRect x y w h c :: d.log }

/-- Modelled from the spec: `display.getPixel(x, y)` reads the buffer; a coordinate
off the screen reads as clear. -/
def Device.getPixel (d : Device) (x y : Int) : Bool :=
  if 0 ≤ x ∧ x < SCREEN_WIDTH ∧ 0 ≤ y ∧ y < SCREEN_HEIGHT then d.pixels x y else false

/-- Modelled from the spec: `display.clearDisplay()` clears every pixel. -/
def Device.clearDisplay (d : Device) : Device :=
  { d with pixels := fun _ _ => false, log := Call.clearDisplay :: d.log }

/-- A call whose effect on the pixel buffer is given by `raster` (bitmaps and text). -/
def Device.paint (d : Device) (c : Call) : Device :=
  { d with pixels := d.raster d.log c d.pixels, log := c :: d.log }

/-- A call that leaves the pixel buffer and the EEPROM alone (flush, invert, delay,
cursor move, waiting for input). -/
def Device.note (d : Device) (c : Call) : Device :=
  { d with log := c :: d.log }

/-- Modelled from the spec: `EEPROM.put(0, v)` stores `v` in slot 0. -/
def Device.eepromPut (d : Device) (v : Int) : Device :=
  { d with eeprom := v, log := Call.eepromPut v :: d.log }

/-- The values written by the `EEPROM.put` calls of a log, most recent first. -/
def eepromPuts (log : List Call) : List Int :=
  log.filterMap fun c => match c with
    | Call.eepromPut v => some v
    | _ => none

/-! ## draw_square, test_position (main.cpp lines 27-33) -/

def draw_square (d : Device) (pos : Position) (color : Color) : Device :=
  d.fillRect (pos.x * 2) (pos.y * 2) 2 2 color

def test_position (d : Device) (pos : Position) : Bool :=
  d.getPixel (pos.x * 2) (pos.y * 2)

/-! ## kDirPos (main.cpp lines 35-37) -/

def kDirPos : List Position :=
  [⟨0, -1⟩, ⟨1, 0⟩, ⟨0, 1⟩, ⟨-1, 0⟩]

/-! ## Player (main.cpp lines 39-84) -/

structure Player where
  pos : Position
  tail : List Nat
  direction : Nat
  size : Int
  moved : Int

/-- The method `reset()` overwrites every member, so the result does not depend on
the previous state. -/
def Player.reset (_p : Player) : Player :=
  { pos := ⟨32, 16⟩
    direction := 1
    size := kStartLength
    tail := List.replicate kMaxLength 0
    moved := 0 }

def Player.turn_left (p : Player) : Player :=
  { p with direction := (p.direction + 3) % 4 }

def Player.turn_right (p : Player) : Player :=
  { p with direction := (p.direction + 1) % 4 }

/-- Modelled from the spec: `turn_up()` is called by `loop()` but defined nowhere in
`main.cpp`; section 6 says that up/down assign the heading directly.  Up is ordinal 0. -/
def Player.turn_up (p : Player) : Player :=
  { p with direction := 0 }

/-- Modelled from the spec: `turn_down()` is called by `loop()` but defined nowhere in
`main.cpp`; section 6 says that up/down assign the heading directly.  Down is ordinal 2. -/
def Player.turn_down (p : Player) : Player :=
  { p with direction := 2 }

/-- The loop of `update()` (lines 63-65), entered with the loop variable equal to `i`:
it runs the body for `i`, `i - 1`, ..., `1` and stops at `0`. -/
def shiftLoop : Nat → List Nat → Option (List Nat)
  | 0, t => some t
  | i + 1, t => do
    let a ← t[i + 1]?
    let b ← t[i]?
    shiftLoop i (t.set (i + 1) ((a <<< 2 ||| ((b >>> 6) &&& 3)) % 256))

def Player.update (p : Player) : Option Player := do
  let t ← shiftLoop (kMaxLength - 1) p.tail
  let a ← t[0]?
  let t := t.set 0 ((a <<< 2 ||| ((p.direction + 2) % 4)) % 256)
  let v ← kDirPos[p.direction]?
  let pos := p.pos.add v
  let moved := if p.moved < p.size then p.moved + 1 else p.moved
  some { p with tail := t, pos := pos, moved := moved }

/-- The loop of `render()` (lines 78-81) with `n` iterations left, loop variable `i`
and running position `tailpos`.  It returns the final `tailpos` and the display. -/
def Player.renderLoop (p : Player) : Nat → Nat → Position → Device → Option (Position × Device)
  | 0, _, tailpos, d => some (tailpos, d)
  | n + 1, i, tailpos, d => do
    let b ← p.tail[i >>> 2]?
    let v ← kDirPos[(b >>> ((i &&& 3) * 2)) &&& 3]?
    let tailpos := tailpos.add v
    p.renderLoop n (i + 1) tailpos (draw_square d tailpos Color.WHITE)

/-- The statement `player.size++` of the item-pickup branch of `update_game()`
(line 179). -/
def Player.grow (p : Player) : Player :=
  { p with size := p.size + 1 }

/-- The method `render()`.  The loop `for (int i = 0; i < size; ++i)` makes
`size.toNat` iterations. -/
def Player.render (p : Player) (d : Device) : Option Device :=
  let d := draw_square d p.pos Color.WHITE
  if p.moved < p.size then some d
  else do
    let r ← p.renderLoop p.size.toNat 0 p.pos d
    some (draw_square r.2 r.1 Color.BLACK)

/-! ## Item (main.cpp lines 88-97) -/

structure Item where
  pos : Position

/-- The random source: `rnd lo hi` is the value that `random(lo, hi)` returns. -/
abbrev Random := Int → Int → Int

/-- The contract of Arduino `random(lo, hi)`: a value from `lo` up to `hi - 1`. -/
def RandomContract (rnd : Random) : Prop :=
  ∀ lo hi : Int, lo < hi → lo ≤ rnd lo hi ∧ rnd lo hi < hi

def Item.spawn (_it : Item) (rnd : Random) : Item :=
  { pos := ⟨rnd 1 63, rnd 1 31⟩ }

def Item.render (it : Item) (d : Device) : Device :=
  draw_square d it.pos Color.WHITE

/-! ## Screens (main.cpp lines 99-159) -/

/-- The busy wait on `Serial.available()`.  It changes no game state; the development
covers the executions in which a byte arrives, so that the call returns. -/
def wait_for_input (d : Device) : Device :=
  d.note Call.waitInput

def push_to_start (d : Device) : Device :=
  (d.note (Call.setCursor 26 57)).paint (Call.printText Text.pressAnyButton)

def flash_screen (d : Device) : Device :=
  (((d.note (Call.invertDisplay true)).note (Call.delay 100)).note
    (Call.invertDisplay false)).note (Call.delay 200)

def play_intro (d : Device) : Device :=
  let d := d.clearDisplay
  let d := d.paint (Call.drawBitmap Bitmap.StartGame)
  let d := push_to_start d
  let d := d.note Call.display
  let d := wait_for_input d
  flash_screen d

def play_outro (d : Device) : Device :=
  let d := flash_screen d
  let d := d.clearDisplay
  let d := d.paint (Call.drawBitmap Bitmap.WinGame)
  let d := push_to_start d
  let d := d.note Call.display
  let d := wait_for_input d
  flash_screen d

/-- The part of `play_gameover()` from the score computation to the high-score
update (lines 140-151), on the device and the player's `size`. -/
def gameover_score (d : Device) (size : Int) : Device × Int :=
  let score := size - kStartLength
  let d := d.note (Call.setCursor 50 57)
  let d := d.paint (Call.printText Text.score)
  let d := d.paint (Call.printInt score)
  let hiscore := d.eeprom
  if score > hiscore then
    let d := d.eepromPut score
    let d := d.note (Call.setCursor 26 57)
    let d := d.paint (Call.printText Text.newHighScore)
    (d, score)
  else (d, hiscore)

def play_gameover (d : Device) (size : Int) : Device :=
  let d := flash_screen d
  let d := d.clearDisplay
  let d := d.paint (Call.drawBitmap Bitmap.GameOver)
  let r := gameover_score d size
  let d := r.1
  let hiscore := r.2
  let d := d.note (Call.setCursor 26 57)
  let d := d.paint (Call.printText Text.highScore)
  let d := d.paint (Call.printInt hiscore)
  let d := push_to_start d
  let d := d.note Call.display
  let d := wait_for_input d
  flash_screen d

/-! ## The round controller (main.cpp lines 161-222) -/

structure Game where
  player : Player
  item : Item
  dev : Device

/-- The first loop of `reset_game()` with `n` iterations left and loop variable `x`. -/
def wallLoopX : Nat → Int → Device → Device
  | 0, _, d => d
  | n + 1, x, d =>
    wallLoopX n (x + 1) (draw_square (draw_square d ⟨x, 0⟩ Color.WHITE) ⟨x, 31⟩ Color.WHITE)

/-- The second loop of `reset_game()` with `n` iterations left and loop variable `y`. -/
def wallLoopY : Nat → Int → Device → Device
  | 0, _, d => d
  | n + 1, y, d =>
    wallLoopY n (y + 1) (draw_square (draw_square d ⟨0, y⟩ Color.WHITE) ⟨63, y⟩ Color.WHITE)

def reset_game (g : Game) (rnd : Random) : Game :=
  let d := g.dev.clearDisplay
  let d := wallLoopX kGameWidth 0 d
  let d := wallLoopY kGameHeight 0 d
  { player := g.player.reset, item := g.item.spawn rnd, dev := d }

/-- Which branch of `update_game()` was taken. -/
inductive Branch where
  | pickup
  | gameover
  | move
deriving DecidableEq

/-- The function `update_game()`; `rnd` answers the calls of `random` made during this
call.  The second component names the branch taken. -/
def update_game (g : Game) (rnd : Random) : Option (Game × Branch) := do
  let p ← g.player.update
  if p.pos = g.item.pos then
    some ({ g with player := p.grow, item := g.item.spawn rnd }, Branch.pickup)
  else if test_position g.dev p.pos then
    let d := play_gameover g.dev p.size
    some (reset_game { g with player := p, dev := d } rnd, Branch.gameover)
  else
    some ({ g with player := p }, Branch.move)

def render_game (g : Game) : Option Game := do
  let d ← g.player.render g.dev
  let d := g.item.render d
  some { g with dev := d.note Call.display }

/-- The command dispatch of `loop()` (lines 207-218); `command` is `none` when
`Serial.available()` is zero and the byte read otherwise. -/
def dispatch (p : Player) (command : Option Char) : Player :=
  match command with
  | none => p
  | some c =>
    if c = 'A' then p.turn_left
    else if c = 'D' then p.turn_right
    else if c = 'W' then p.turn_up
    else if c = 'S' then p.turn_down
    else p

/-- One pass of `loop()`. -/
def loop (g : Game) (command : Option Char) (rnd : Random) : Option (Game × Branch) := do
  let g := { g with player := dispatch g.player command }
  let r ← update_game g rnd
  let g ← render_game r.1
  some ({ g with dev := g.dev.note (Call.delay 100) }, r.2)

/-- What one pass of `loop()` receives from outside: the command byte, if one is
available, and the answers of the random source. -/
structure TickInput where
  command : Option Char
  rnd : Random

/-- Consecutive passes of `loop()`.  The first component lists the branch that
`update_game()` took in each completed pass; the second is the final state, or `none`
when a pass made an access outside an array. -/
def runLoop : Game → List TickInput → List Branch × Option Game
  | g, [] => ([], some g)
  | g, inp :: rest =>
    match loop g inp.command inp.rnd with
    | none => ([], none)
    | some r => (r.2 :: (runLoop r.1 rest).1, (runLoop r.1 rest).2)

/-! ## Specification vocabulary -/

/-- The byte that `update()` stores at an index: the old byte `a` shifted left by one
symbol, with the symbol `c` entering at the low end. -/
def shiftByte (a c : Nat) : Nat :=
  (a <<< 2 ||| c) % 256

/-- Symbol `k` of the history: bits `2 * (k mod 4)` and `2 * (k mod 4) + 1` of byte
`k div 4`. -/
def symbolAt (t : List Nat) (k : Nat) : Option Nat :=
  (t[k / 4]?).map fun b => (b >>> (2 * (k % 4))) &&& 3

/-- The running position of the walk of `render()` as a function of the history alone:
`tailWalk t n i tailpos` decodes the `n` symbols `i`, ..., `i + n - 1` and adds their
vectors to `tailpos`. -/
def tailWalk (t : List Nat) : Nat → Nat → Position → Option Position
  | 0, _, tailpos => some tailpos
  | n + 1, i, tailpos => do
    let s ← symbolAt t i
    let v ← kDirPos[s]?
    tailWalk t n (i + 1) (tailpos.add v)

/-- The operations on the player that a round interleaves. -/
inductive Op where
  | turn_left
  | turn_right
  | update
  | grow
deriving DecidableEq

def Player.apply (p : Player) : Op → Option Player
  | Op.turn_left => some p.turn_left
  | Op.turn_right => some p.turn_right
  | Op.update => p.update
  | Op.grow => some p.grow

/-- Runs the operations in order.  The list carried along is the head history: each
`update` pushes the head position it leaves behind, so entry `i` is the position the
head held `i + 1` updates earlier. -/
def runHist : Player × List Position → List Op → Option (Player × List Position)
  | st, [] => some st
  | st, op :: ops => do
    let p ← st.1.apply op
    runHist (p, if op = Op.update then st.1.pos :: st.2 else st.2) ops

/-- Number of `update` calls in a run. -/
def updateCount (ops : List Op) : Nat :=
  ops.count Op.update

/-- The history `hist` is what the walk over the player's symbols reconstructs: for
each entry `i` within the capacity, the running position after decoding the symbols
`0`, ..., `i` from the head is entry `i`. -/
def Tracks (p : Player) (hist : List Position) : Prop :=
  p.tail.length = kMaxLength ∧ p.direction < 4 ∧
    ∀ i, i < hist.length → i < 4 * kMaxLength →
      tailWalk p.tail (i + 1) 0 p.pos = hist[i]?

/-! ## Concrete states used as examples -/

/-- A device with a clear screen, nothing stored, nothing logged, and a rasteriser
that leaves the buffer alone. -/
def blankDevice : Device :=
  { pixels := fun _ _ => false, eeprom := 0, log := [], raster := fun _ _ px => px }

/-- The player as constructed: `Player()` calls `reset()`. -/
def startPlayer : Player :=
  Player.reset ⟨⟨0, 0⟩, [], 0, 0, 0⟩

/-- A random source that always answers with the lower bound. -/
def lowRandom : Random :=
  fun lo _ => lo

/-- A game whose snake has `size = kMaxLength` and whose item lies one cell ahead of
the head. -/
def fullGame : Game :=
  { player := { startPlayer with size := kMaxLength }
    item := ⟨⟨33, 16⟩⟩
    dev := blankDevice }

/-- The cell lies on the 64x32 playfield. -/
def InGrid (q : Position) : Prop :=
  0 ≤ q.x ∧ q.x < 64 ∧ 0 ≤ q.y ∧ q.y < 32

instance (q : Position) : Decidable (InGrid q) :=
  inferInstanceAs (Decidable (0 ≤ q.x ∧ q.x < 64 ∧ 0 ≤ q.y ∧ q.y < 32))

/-- The cell lies on the wall ring of the playfield. -/
def OnWall (q : Position) : Prop :=
  q.x = 0 ∨ q.x = 63 ∨ q.y = 0 ∨ q.y = 31

instance (q : Position) : Decidable (OnWall q) :=
  inferInstanceAs (Decidable (q.x = 0 ∨ q.x = 63 ∨ q.y = 0 ∨ q.y = 31))

/-- A game whose snake heads right from the cell next to the right wall, on the
display left by `reset_game()`. -/
def wallGame : Game :=
  { (reset_game fullGame lowRandom) with
    player := { startPlayer with pos := ⟨62, 16⟩ } }

/-- A random source that puts the next item at `(x, 16)`. -/
def rowRandom (x : Int) : Random :=
  fun _ hi => if hi = 63 then x else 16

/-- A fresh round whose item lies one cell ahead of the head. -/
def feastGame : Game :=
  { player := startPlayer, item := ⟨⟨33, 16⟩⟩, dev := blankDevice }

/-- Three passes without a command; each new item appears one cell further ahead. -/
def feastTicks : List TickInput :=
  [⟨none, rowRandom 34⟩, ⟨none, rowRandom 35⟩, ⟨none, rowRandom 36⟩]

/-- The game `feastGame` on a display where the item cell (33, 16) is already set. -/
def coveredGame : Game :=
  { feastGame with dev := draw_square blankDevice ⟨33, 16⟩ Color.WHITE }

/-- A player that has moved its full length: the state left by `reset()` with
`moved = size = 6`. -/
def grownPlayer : Player :=
  { startPlayer with moved := 6 }

/-- The player `grownPlayer` with byte 100 of the array overwritten: the symbols
400..403, far beyond `size`, differ. -/
def stalePlayer : Player :=
  { grownPlayer with tail := grownPlayer.tail.set 100 255 }

/-- A player of `size = moved = 2` at (32, 16) whose first two symbols are 3 (left):
the walk of `render()` visits (31, 16) and (30, 16). -/
def shortPlayer : Player :=
  { startPlayer with tail := 15 :: List.replicate 463 0, size := 2, moved := 2 }

/-- The cells of `shortPlayer`: cell `k` is `k` steps to the left of the head. -/
def shortCells (k : Nat) : Position :=
  ⟨32 - k, 16⟩

/-! ## A round without item: turns, `update()`, `render()` -/

/-- The optional turn at the start of a tick. -/
inductive Steer where
  | ahead
  | left
  | right
deriving DecidableEq

def Player.steer (p : Player) : Steer → Player
  | Steer.ahead => p
  | Steer.left => p.turn_left
  | Steer.right => p.turn_right

/-- The state of a round in which only the player acts: the player, the device, the
head positions left behind (most recent first), and whether every `update()` so far
has put the head on a cell whose pixel was clear. -/
structure Body where
  player : Player
  dev : Device
  heads : List Position
  clear : Bool

/-- One tick: the optional turn, `update()`, the test of the new head cell against the
pixel buffer, `render()`. -/
def Body.tick (s : Body) (t : Steer) : Option Body := do
  let p ← (s.player.steer t).update
  let d ← p.render s.dev
  some { player := p, dev := d, heads := s.player.pos :: s.heads
         clear := s.clear && !test_position s.dev p.pos }

def Body.run : Body → List Steer → Option Body
  | s, [] => some s
  | s, t :: ts => (s.tick t).bind fun s' => Body.run s' ts

/-- The state left by `reset_game()`. -/
def Body.start (g : Game) (rnd : Random) : Body :=
  { player := (reset_game g rnd).player, dev := (reset_game g rnd).dev
    heads := [], clear := true }

/-- The heading after the optional turn. -/
def steerDir (dir : Nat) : Steer → Nat
  | Steer.ahead => dir
  | Steer.left => (dir + 3) % 4
  | Steer.right => (dir + 1) % 4

/-- The cells that test as set after drawing cell `c`, given the cells `lit` that
tested as set before. -/
def paint (lit : Position → Bool) (c : Position) (col : Bool) : Position → Bool :=
  fun q => if c = q ∧ InGrid q then col else lit q

/-- The round seen on cells only, without the byte array and the pixels: the heading,
the head positions (current head first), the cells that test as set, and the collision
flag. -/
structure Trail where
  dir : Nat
  cells : List Position
  lit : Position → Bool
  clear : Bool

/-- The cell the head enters: the current head moved by the vector of the heading
after the optional turn. -/
def Trail.nextHead (a : Trail) (t : Steer) : Position :=
  (a.cells.headD ⟨0, 0⟩).add (kDirPos.getD (steerDir a.dir t) ⟨0, 0⟩)

/-- One tick on cells: the head moves by the vector of the heading; it is drawn; once
six updates have been made the six previous heads are drawn and the sixth is erased. -/
def Trail.tick (a : Trail) (t : Steer) : Trail :=
  let dir := steerDir a.dir t
  let head := a.nextHead t
  let lit1 := paint a.lit head true
  { dir := dir
    cells := head :: a.cells
    lit := if a.cells.length < 6 then lit1
      else paint ((a.cells.take 6).foldl (fun l c => paint l c true) lit1)
        (a.cells.getD 5 ⟨0, 0⟩) false
    clear := a.clear && !a.lit head }

def Trail.run : Trail → List Steer → Trail
  | a, [] => a
  | a, t :: ts => Trail.run (a.tick t) ts

/-- The cells view of the state left by `reset_game()`: heading 1, head at (32, 16),
the wall ring set. -/
def Trail.start : Trail :=
  { dir := 1, cells := [⟨32, 16⟩], lit := fun q => decide (InGrid q ∧ OnWall q)
    clear := true }

/-- The byte-level state `s` and the cells view `a` describe the same round. -/
def Sim (s : Body) (a : Trail) : Prop :=
  Tracks s.player s.heads ∧ s.player.size = 6 ∧
    s.player.moved = min (s.heads.length : Int) 6 ∧
    s.player.direction = a.dir ∧ a.cells = s.player.pos :: s.heads ∧
    s.clear = a.clear ∧ ∀ q, test_position s.dev q = a.lit q

/-- A cell strictly inside the wall ring. -/
def Interior (q : Position) : Prop :=
  1 ≤ q.x ∧ q.x ≤ 62 ∧ 1 ≤ q.y ∧ q.y ≤ 30

instance (q : Position) : Decidable (Interior q) :=
  inferInstanceAs (Decidable (1 ≤ q.x ∧ q.x ≤ 62 ∧ 1 ≤ q.y ∧ q.y ≤ 30))

/-- What holds of the cells view as long as no update has hit a set cell: the heading
is an ordinal, the oldest cell is the start cell, all heads are interior cells, their
parity alternates, heads at most six updates apart (the start cell excepted) differ,
and the cells that test as set are the wall ring and the last `min n 6` heads except
the seventh cell of the list. -/
def Good (a : Trail) : Prop :=
  a.dir < 4 ∧ a.cells.getLast? = some ⟨32, 16⟩ ∧
    (∀ q, q ∈ a.cells → Interior q) ∧
    (∀ (i : Nat) (q : Position), a.cells[i]? = some q →
      (q.x + q.y + (i : Int) + (a.cells.length : Int)) % 2 = 1) ∧
    (∀ i j b c, i < j → j ≤ i + 6 → j + 1 < a.cells.length →
      a.cells[i]? = some b → a.cells[j]? = some c → b ≠ c) ∧
    ∀ q, a.lit q = true ↔
      InGrid q ∧ (OnWall q ∨
        (q ∈ a.cells.take (min (a.cells.length - 1) 6) ∧ a.cells[6]? ≠ some q))

/-- A run that goes right, up, left, down and so re-enters the start cell at the
fourth update, then goes on down twice. -/
def loopSteers : List Steer :=
  [Steer.ahead, Steer.left, Steer.left, Steer.left, Steer.ahead, Steer.ahead]

/-- Seven ticks straight ahead. -/
def straightSteers : List Steer :=
  [Steer.ahead, Steer.ahead, Steer.ahead, Steer.ahead, Steer.ahead, Steer.ahead,
    Steer.ahead]

/-! ## What a pass of `loop()` finds after `update()` -/

/-- The two tests of `update_game()` as seen right after `Player::update()`: whether
the head position equals the item position, and whether the pixel of the head cell is
set. -/
structure Seen where
  onItem : Bool
  onPixel : Bool
deriving DecidableEq

/-- The tests of one pass, read off the state before the pass: the command is
dispatched, `update()` is run, and the new head is compared with the item position and
tested against the pixel buffer. -/
def headSeen (g : Game) (command : Option Char) : Option Seen :=
  ((dispatch g.player command).update).map fun p =>
    { onItem := decide (p.pos = g.item.pos), onPixel := test_position g.dev p.pos }

/-- The tests of consecutive passes of `loop()`, one entry per completed pass. -/
def runSeen : Game → List TickInput → List Seen
  | _, [] => []
  | g, inp :: rest =>
    match headSeen g inp.command, loop g inp.command inp.rnd with
    | some e, some r => e :: runSeen r.1 rest
    | _, _ => []

/-- The branch of `update_game()` that the two tests select. -/
def Seen.branch (e : Seen) : Branch :=
  if e.onItem then Branch.pickup else if e.onPixel then Branch.gameover else Branch.move

/-! ## Bit arithmetic -/

theorem and_three (x : Nat) : x &&& 3 = x % 4 :=
  Nat.and_pow_two_sub_one_eq_mod x 2

theorem shl_or (a c : Nat) (hc : c < 4) : a <<< 2 ||| c = 4 * a + c := by
  have h := Nat.mul_add_lt_is_or (i := 2) (b := c) (by simpa using hc) a
  rw [Nat.shiftLeft_eq, Nat.mul_comm a]
  exact h.symm

theorem shiftByte_eq (a c : Nat) (hc : c < 4) : shiftByte a c = (4 * a + c) % 256 := by
  unfold shiftByte
  rw [shl_or a c hc]

/-- Slot 0 of a shifted byte holds the symbol that entered. -/
theorem shiftByte_slot_zero (a c : Nat) (hc : c < 4) :
    (shiftByte a c >>> (2 * 0)) &&& 3 = c := by
  rw [shiftByte_eq a c hc, and_three, Nat.shiftRight_eq_div_pow]
  norm_num
  omega

/-- Slot `j + 1` of a shifted byte holds what slot `j` held before. -/
theorem shiftByte_slot_succ (a c j : Nat) (hc : c < 4) (hj : j + 1 < 4) :
    (shiftByte a c >>> (2 * (j + 1))) &&& 3 = (a >>> (2 * j)) &&& 3 := by
  rw [shiftByte_eq a c hc, and_three, and_three, Nat.shiftRight_eq_div_pow,
    Nat.shiftRight_eq_div_pow]
  have hj3 : j = 0 ∨ j = 1 ∨ j = 2 := by omega
  rcases hj3 with h | h | h <;> subst h <;> norm_num <;> omega

/-! ## The byte shift of `update()` -/

/-- The loop of `update()` entered at `i` succeeds on an array longer than `i`; it
leaves byte 0 and the bytes above `i` alone and stores in each byte `j + 1 ≤ i` the
old byte shifted, with the top symbol of the old byte `j` entering. -/
theorem shiftLoop_spec (i : Nat) : ∀ t : List Nat, i < t.length →
    ∃ t', shiftLoop i t = some t' ∧ t'.length = t.length ∧
      (∀ j, i < j → t'[j]? = t[j]?) ∧ t'[0]? = t[0]? ∧
      (∀ j, j < i → t'[j + 1]? =
        some (shiftByte (t.getD (j + 1) 0) ((t.getD j 0 >>> 6) &&& 3))) := by
  induction i with
  | zero =>
    intro t _
    exact ⟨t, rfl, rfl, fun _ _ => rfl, rfl, fun j hj => absurd hj (Nat.not_lt_zero j)⟩
  | succ i ih =>
    intro t ht
    have h1 : t[i + 1]? = some (t.getD (i + 1) 0) := by
      simp [List.getElem?_eq_getElem ht]
    have h0 : t[i]? = some (t.getD i 0) := by
      simp [List.getElem?_eq_getElem (Nat.lt_of_succ_lt ht)]
    obtain ⟨t', hrun, hlen, habove, hzero, hshift⟩ :=
      ih (t.set (i + 1) (shiftByte (t.getD (i + 1) 0) ((t.getD i 0 >>> 6) &&& 3)))
        (by simpa using Nat.lt_of_succ_lt ht)
    refine ⟨t', ?_, ?_, ?_, ?_, ?_⟩
    · simp only [shiftLoop, h1, h0, Option.bind_eq_bind, Option.some_bind]
      exact hrun
    · simpa using hlen
    · intro j hj
      rw [habove j (Nat.lt_of_succ_lt hj), List.getElem?_set_ne (by omega)]
    · rw [hzero, List.getElem?_set_ne (by omega)]
    · intro j hj
      rcases Nat.lt_or_ge j i with hlt | hge
      · rw [hshift j hlt]
        simp only [List.getD_eq_getElem?_getD]
        rw [List.getElem?_set_ne (by omega), List.getElem?_set_ne (by omega)]
      · have hji : j = i := by omega
        subst hji
        rw [habove (j + 1) (Nat.lt_succ_self j), List.getElem?_set]
        simp [ht]

/-- Bytes of the array that `update()` leaves: byte 0 takes the new symbol `c`, byte
`j + 1` takes the top symbol of the old byte `j`. -/
theorem update_bytes (t : List Nat) (c : Nat) (ht : 0 < t.length) :
    ∃ t1 a, shiftLoop (t.length - 1) t = some t1 ∧ t1[0]? = some a ∧
      (t1.set 0 (shiftByte a c)).length = t.length ∧
      (t1.set 0 (shiftByte a c))[0]? = some (shiftByte (t.getD 0 0) c) ∧
      (∀ j, j + 1 < t.length → (t1.set 0 (shiftByte a c))[j + 1]? =
        some (shiftByte (t.getD (j + 1) 0) ((t.getD j 0 >>> 6) &&& 3))) := by
  obtain ⟨t1, hrun, hlen, _, hzero, hshift⟩ := shiftLoop_spec (t.length - 1) t (by omega)
  have h0 : t[0]? = some (t.getD 0 0) := by simp [List.getElem?_eq_getElem ht]
  refine ⟨t1, t.getD 0 0, hrun, hzero.trans h0, by simpa using hlen, ?_, ?_⟩
  · rw [List.getElem?_set]
    simp [hlen, ht]
  · intro j hj
    rw [List.getElem?_set_ne (by omega)]
    exact hshift j (by omega)

/-- Symbols of the array that `update()` leaves: symbol 0 is the new symbol and symbol
`k + 1` is the old symbol `k`. -/
theorem update_symbols (t : List Nat) (c : Nat) (ht : 0 < t.length) (hc : c < 4) :
    ∃ t1 a, shiftLoop (t.length - 1) t = some t1 ∧ t1[0]? = some a ∧
      (t1.set 0 (shiftByte a c)).length = t.length ∧
      symbolAt (t1.set 0 (shiftByte a c)) 0 = some c ∧
      (∀ k, k + 1 < 4 * t.length →
        symbolAt (t1.set 0 (shiftByte a c)) (k + 1) = symbolAt t k) := by
  obtain ⟨t1, a, hrun, ha, hlen, hzero, hshift⟩ := update_bytes t c ht
  refine ⟨t1, a, hrun, ha, hlen, ?_, ?_⟩
  · unfold symbolAt
    rw [show 0 / 4 = 0 from rfl, hzero, Option.map_some', show 0 % 4 = 0 from rfl,
      shiftByte_slot_zero _ _ hc]
  · intro k hk
    have hk4 : k / 4 < t.length := by omega
    have hold : t[k / 4]? = some (t.getD (k / 4) 0) := by
      simp [List.getElem?_eq_getElem hk4]
    unfold symbolAt
    rw [hold, Option.map_some']
    rcases Nat.eq_zero_or_pos ((k + 1) % 4) with hr | hr
    · have hq : (k + 1) / 4 = k / 4 + 1 := by omega
      have hm : k % 4 = 3 := by omega
      rw [hq, hr, hm, hshift (k / 4) (by omega), Option.map_some',
        shiftByte_slot_zero _ _ (by rw [and_three]; omega)]
    · have hq : (k + 1) / 4 = k / 4 := by omega
      have hm : (k + 1) % 4 = k % 4 + 1 := by omega
      rw [hq, hm]
      rcases Nat.eq_zero_or_pos (k / 4) with hz | hz
      · rw [hz, hzero, Option.map_some', shiftByte_slot_succ _ _ _ hc (by omega)]
      · obtain ⟨j, hj⟩ : ∃ j, k / 4 = j + 1 := ⟨k / 4 - 1, by omega⟩
        rw [hj, hshift j (by omega), Option.map_some',
          shiftByte_slot_succ _ _ _ (by rw [and_three]; omega) (by omega)]

/-- What `update()` does to a player whose array has its declared length and whose
heading is an ordinal. -/
theorem update_spec (p : Player) (hlen : p.tail.length = kMaxLength) (hd : p.direction < 4) :
    ∃ p' v, p.update = some p' ∧ kDirPos[p.direction]? = some v ∧
      p'.pos = p.pos.add v ∧ p'.direction = p.direction ∧ p'.size = p.size ∧
      p'.moved = (if p.moved < p.size then p.moved + 1 else p.moved) ∧
      p'.tail.length = kMaxLength ∧
      symbolAt p'.tail 0 = some ((p.direction + 2) % 4) ∧
      (∀ k, k + 1 < 4 * kMaxLength → symbolAt p'.tail (k + 1) = symbolAt p.tail k) := by
  have ht : 0 < p.tail.length := by rw [hlen]; decide
  obtain ⟨t1, a, hrun, ha, hl, hzero, hshift⟩ :=
    update_symbols p.tail ((p.direction + 2) % 4) ht (Nat.mod_lt _ (by decide))
  have hv : kDirPos[p.direction]? = some (kDirPos.getD p.direction ⟨0, 0⟩) := by
    have : p.direction < kDirPos.length := hd
    simp [List.getElem?_eq_getElem this]
  rw [hlen] at hrun hl hshift
  refine ⟨{ p with
      tail := t1.set 0 (shiftByte a ((p.direction + 2) % 4))
      pos := p.pos.add (kDirPos.getD p.direction ⟨0, 0⟩)
      moved := if p.moved < p.size then p.moved + 1 else p.moved }, _, ?_, hv,
    rfl, rfl, rfl, rfl, hl, hzero, hshift⟩
  simp only [Player.update, hrun, ha, hv, Option.bind_eq_bind, Option.some_bind]
  rfl

/-- The vector of the opposite ordinal undoes the vector of the ordinal. -/
theorem kDirPos_opposite (q : Position) (d : Nat) (hd : d < 4) :
    ∃ v w, kDirPos[d]? = some v ∧ kDirPos[(d + 2) % 4]? = some w ∧ (q.add v).add w = q := by
  have h : d = 0 ∨ d = 1 ∨ d = 2 ∨ d = 3 := by omega
  rcases h with h | h | h | h <;> subst h <;>
    exact ⟨_, _, rfl, rfl, by cases q; simp [Position.add, kDirPos]⟩

/-! ## The walk of `render()` -/

/-- The decoding expression of `render()` reads symbol `i`. -/
theorem decode_eq_symbolAt (t : List Nat) (i : Nat) :
    (t[i >>> 2]?).map (fun b => (b >>> ((i &&& 3) * 2)) &&& 3) = symbolAt t i := by
  unfold symbolAt
  rw [Nat.shiftRight_eq_div_pow, and_three, Nat.mul_comm (i % 4) 2]

/-- The running position of the loop of `render()` does not depend on the display. -/
theorem renderLoop_fst (p : Player) (n : Nat) : ∀ (i : Nat) (tp : Position) (d : Device),
    (p.renderLoop n i tp d).map Prod.fst = tailWalk p.tail n i tp := by
  induction n with
  | zero => intro i tp d; rfl
  | succ n ih =>
    intro i tp d
    rw [tailWalk, ← decode_eq_symbolAt, Player.renderLoop]
    cases hb : p.tail[i >>> 2]? with
    | none => rfl
    | some b =>
      simp only [Option.bind_eq_bind, Option.some_bind, Option.map_some']
      cases hv : kDirPos[(b >>> ((i &&& 3) * 2)) &&& 3]? with
      | none => rfl
      | some v =>
        simp only [Option.some_bind]
        exact ih _ _ _

/-- The loop of `render()` with `a + b` iterations is the loop with `a` iterations
followed by the loop with `b` iterations. -/
theorem renderLoop_add (p : Player) (a b : Nat) : ∀ (i : Nat) (tp : Position) (d : Device),
    p.renderLoop (a + b) i tp d =
      (p.renderLoop a i tp d).bind fun r => p.renderLoop b (i + a) r.1 r.2 := by
  induction a with
  | zero => intro i tp d; simp [Player.renderLoop]
  | succ a ih =>
    intro i tp d
    rw [show a + 1 + b = (a + b) + 1 by omega, Player.renderLoop, Player.renderLoop]
    cases hb : p.tail[i >>> 2]? with
    | none => rfl
    | some c =>
      simp only [Option.bind_eq_bind, Option.some_bind]
      cases hv : kDirPos[(c >>> ((i &&& 3) * 2)) &&& 3]? with
      | none => rfl
      | some v =>
        simp only [Option.some_bind]
        rw [ih, show i + 1 + a = i + (a + 1) by omega]

/-- Walking a shifted history from symbol `i + 1` is walking the old history from
symbol `i`. -/
theorem tailWalk_shift (t t' : List Nat) (cap : Nat)
    (h : ∀ k, k + 1 < cap → symbolAt t' (k + 1) = symbolAt t k) (n : Nat) :
    ∀ (i : Nat) (tp : Position), i + n < cap →
      tailWalk t' n (i + 1) tp = tailWalk t n i tp := by
  induction n with
  | zero => intro i tp _; rfl
  | succ n ih =>
    intro i tp hi
    rw [tailWalk, tailWalk, h i (by omega)]
    cases hs : symbolAt t i with
    | none => rfl
    | some c =>
      simp only [Option.bind_eq_bind, Option.some_bind]
      cases hv : kDirPos[c]? with
      | none => rfl
      | some v =>
        simp only [Option.some_bind]
        exact ih _ _ (by omega)

/-! ## The history invariant -/

theorem tracks_turn_left (p : Player) (hist : List Position) (h : Tracks p hist) :
    Tracks p.turn_left hist :=
  ⟨h.1, Nat.mod_lt _ (by decide), h.2.2⟩

theorem tracks_turn_right (p : Player) (hist : List Position) (h : Tracks p hist) :
    Tracks p.turn_right hist :=
  ⟨h.1, Nat.mod_lt _ (by decide), h.2.2⟩

/-- An `update()` keeps the invariant when the head position it leaves is pushed. -/
theorem tracks_update (p : Player) (hist : List Position) (h : Tracks p hist) :
    ∃ p', p.update = some p' ∧ p'.size = p.size ∧
      p'.moved = (if p.moved < p.size then p.moved + 1 else p.moved) ∧
      Tracks p' (p.pos :: hist) := by
  obtain ⟨hlen, hd, hwalk⟩ := h
  obtain ⟨p', v, hup, hv, hpos, hdir, hsize, hmoved, hlen', hsym0, hshift⟩ :=
    update_spec p hlen hd
  obtain ⟨v0, w, hv0, hw, hback⟩ := kDirPos_opposite p.pos p.direction hd
  have hvv : v0 = v := Option.some.inj (hv0.symm.trans hv)
  subst hvv
  have hfirst : ∀ n, tailWalk p'.tail (n + 1) 0 p'.pos = tailWalk p'.tail n 1 p.pos := by
    intro n
    rw [tailWalk, hsym0]
    simp only [Option.bind_eq_bind, Option.some_bind, hw, hpos, hback]
  refine ⟨p', hup, hsize, hmoved, hlen', hdir ▸ hd, ?_⟩
  intro i hi hcap
  rw [hfirst]
  cases i with
  | zero => simp [tailWalk]
  | succ i =>
    rw [tailWalk_shift p.tail p'.tail (4 * kMaxLength) hshift (i + 1) 0 p.pos (by omega)]
    simpa using hwalk i (by simpa using hi) (by omega)

theorem tracks_grow (p : Player) (hist : List Position) (h : Tracks p hist) :
    Tracks p.grow hist :=
  h

/-- Every run from a tracked state succeeds, pushes one history entry per update and
keeps the invariant; `moved` stays between 0 and `size` when it starts there, and
`size` is kept by a run without `grow`. -/
theorem runHist_tracks (ops : List Op) : ∀ (p : Player) (hist : List Position),
    Tracks p hist →
    ∃ p' hist', runHist (p, hist) ops = some (p', hist') ∧
      hist'.length = hist.length + updateCount ops ∧ Tracks p' hist' ∧
      (Op.grow ∉ ops → p'.size = p.size) ∧
      (0 ≤ p.moved ∧ p.moved ≤ p.size → 0 ≤ p'.moved ∧ p'.moved ≤ p'.size) := by
  induction ops with
  | nil =>
    intro p hist h
    exact ⟨p, hist, rfl, by simp [updateCount], h, fun _ => rfl, fun hm => hm⟩
  | cons op ops ih =>
    intro p hist h
    cases op with
    | turn_left =>
      obtain ⟨p', hist', hrun, hlen, htr, hsize, hmv⟩ := ih _ _ (tracks_turn_left p hist h)
      refine ⟨p', hist', ?_, ?_, htr, fun hg => hsize fun hmem => hg (by simp [hmem]), hmv⟩
      · simpa [runHist, Player.apply] using hrun
      · simpa [updateCount] using hlen
    | turn_right =>
      obtain ⟨p', hist', hrun, hlen, htr, hsize, hmv⟩ := ih _ _ (tracks_turn_right p hist h)
      refine ⟨p', hist', ?_, ?_, htr, fun hg => hsize fun hmem => hg (by simp [hmem]), hmv⟩
      · simpa [runHist, Player.apply] using hrun
      · simpa [updateCount] using hlen
    | grow =>
      obtain ⟨p', hist', hrun, hlen, htr, _, hmv⟩ := ih _ _ (tracks_grow p hist h)
      refine ⟨p', hist', ?_, ?_, htr, fun hg => absurd (List.mem_cons_self _ _) hg, ?_⟩
      · simpa [runHist, Player.apply] using hrun
      · simpa [updateCount] using hlen
      · intro hm
        apply hmv
        simp only [Player.grow]
        omega
    | update =>
      obtain ⟨p1, hup, hsize1, hmoved1, htr1⟩ := tracks_update p hist h
      obtain ⟨p', hist', hrun, hlen, htr, hsize, hmv⟩ := ih _ _ htr1
      refine ⟨p', hist', ?_, ?_, htr,
        fun hg => (hsize fun hmem => hg (by simp [hmem])).trans hsize1, ?_⟩
      · simpa [runHist, Player.apply, hup] using hrun
      · simp only [updateCount, List.count_cons_self, List.length_cons] at hlen ⊢
        omega
      · intro hm
        apply hmv
        rw [hmoved1, hsize1]
        split_ifs <;> omega

/-- The state left by `reset()`, with any `size`, tracks the empty history. -/
theorem tracks_reset (p0 : Player) (s : Int) : Tracks { p0.reset with size := s } [] :=
  ⟨by simp [Player.reset], by simp [Player.reset], fun i hi => absurd hi (Nat.not_lt_zero i)⟩

/-- Every symbol within the capacity of the array can be read. -/
theorem symbolAt_some (t : List Nat) (k : Nat) (hk : k < 4 * t.length) :
    ∃ c, symbolAt t k = some c := by
  have hk4 : k / 4 < t.length := by omega
  exact ⟨_, by unfold symbolAt; rw [List.getElem?_eq_getElem hk4]; rfl⟩

/-! ## The branches of `update_game()` -/

/-- The three branches of `update_game()` once `update()` has returned `p`. -/
theorem update_game_eq (g : Game) (rnd : Random) (p : Player)
    (hup : g.player.update = some p) :
    update_game g rnd =
      some (if p.pos = g.item.pos then
          ({ g with player := p.grow, item := g.item.spawn rnd }, Branch.pickup)
        else if test_position g.dev p.pos then
          (reset_game { g with player := p, dev := play_gameover g.dev p.size } rnd,
            Branch.gameover)
        else ({ g with player := p }, Branch.move)) := by
  simp only [update_game, hup, Option.bind_eq_bind, Option.some_bind]
  split_ifs <;> rfl

/-- The player of `fullGame` steps onto the item. -/
theorem fullGame_update :
    ∃ p, fullGame.player.update = some p ∧ p.pos = fullGame.item.pos ∧
      p.size = kMaxLength := by
  obtain ⟨p, v, hup, hv, hpos, _, hsize, _⟩ :=
    update_spec fullGame.player (by simp [fullGame, startPlayer, Player.reset]) (by decide)
  have hv1 : v = ⟨1, 0⟩ := (Option.some.inj hv).symm
  subst hv1
  exact ⟨p, hup, hpos, hsize⟩

/-! ## Drawing and testing cells -/

/-- Testing cell `q` after drawing cell `c`: the colour drawn when `q` is `c` and lies
on the playfield, the old answer otherwise. -/
theorem test_position_draw_square (d : Device) (c q : Position) (col : Color) :
    test_position (draw_square d c col) q =
      if c = q ∧ InGrid q then decide (col = Color.WHITE) else test_position d q := by
  obtain ⟨cx, cy⟩ := c
  obtain ⟨qx, qy⟩ := q
  simp only [test_position, draw_square, Device.getPixel, Device.fillRect, InGrid,
    SCREEN_WIDTH, SCREEN_HEIGHT, Position.mk.injEq]
  by_cases hs : 0 ≤ qx * 2 ∧ qx * 2 < 128 ∧ 0 ≤ qy * 2 ∧ qy * 2 < 64
  · rw [if_pos hs]
    by_cases hc : cx = qx ∧ cy = qy
    · rw [if_pos (by omega), if_pos ⟨hc, by omega⟩]
    · rw [if_neg (by omega), if_neg (fun h => hc h.1), if_pos hs]
  · rw [if_neg hs, if_neg (by omega), if_neg hs]

/-- Cells set after the first wall loop: the top and bottom rows between `x` and
`x + n`, and the cells set before. -/
theorem test_position_wallLoopX (n : Nat) : ∀ (x : Int) (d : Device) (q : Position),
    test_position (wallLoopX n x d) q = true ↔
      (x ≤ q.x ∧ q.x < x + n ∧ (q.y = 0 ∨ q.y = 31) ∧ InGrid q) ∨
        test_position d q = true := by
  induction n with
  | zero =>
    intro x d q
    simp only [wallLoopX, Nat.cast_zero, add_zero]
    constructor
    · exact Or.inr
    · rintro (h | h)
      · omega
      · exact h
  | succ n ih =>
    intro x d q
    obtain ⟨qx, qy⟩ := q
    rw [wallLoopX, ih, test_position_draw_square, test_position_draw_square]
    simp only [Position.mk.injEq, InGrid, Nat.cast_add, Nat.cast_one]
    by_cases h31 : (x = qx ∧ 31 = qy) ∧ 0 ≤ qx ∧ qx < 64 ∧ 0 ≤ qy ∧ qy < 32
    · rw [if_pos h31]
      simp only [decide_True, or_true, true_iff]
      left
      omega
    · rw [if_neg h31]
      by_cases h0 : (x = qx ∧ 0 = qy) ∧ 0 ≤ qx ∧ qx < 64 ∧ 0 ≤ qy ∧ qy < 32
      · rw [if_pos h0]
        simp only [decide_True, or_true, true_iff]
        left
        omega
      · rw [if_neg h0]
        constructor
        · rintro (h | h)
          · left
            omega
          · exact Or.inr h
        · rintro (h | h)
          · left
            omega
          · exact Or.inr h

/-- Cells set after the second wall loop: the left and right columns between `y` and
`y + n`, and the cells set before. -/
theorem test_position_wallLoopY (n : Nat) : ∀ (y : Int) (d : Device) (q : Position),
    test_position (wallLoopY n y d) q = true ↔
      (y ≤ q.y ∧ q.y < y + n ∧ (q.x = 0 ∨ q.x = 63) ∧ InGrid q) ∨
        test_position d q = true := by
  induction n with
  | zero =>
    intro y d q
    simp only [wallLoopY, Nat.cast_zero, add_zero]
    constructor
    · exact Or.inr
    · rintro (h | h)
      · omega
      · exact h
  | succ n ih =>
    intro y d q
    obtain ⟨qx, qy⟩ := q
    rw [wallLoopY, ih, test_position_draw_square, test_position_draw_square]
    simp only [Position.mk.injEq, InGrid, Nat.cast_add, Nat.cast_one]
    by_cases h63 : (63 = qx ∧ y = qy) ∧ 0 ≤ qx ∧ qx < 64 ∧ 0 ≤ qy ∧ qy < 32
    · rw [if_pos h63]
      simp only [decide_True, or_true, true_iff]
      left
      omega
    · rw [if_neg h63]
      by_cases h0 : (0 = qx ∧ y = qy) ∧ 0 ≤ qx ∧ qx < 64 ∧ 0 ≤ qy ∧ qy < 32
      · rw [if_pos h0]
        simp only [decide_True, or_true, true_iff]
        left
        omega
      · rw [if_neg h0]
        constructor
        · rintro (h | h)
          · left
            omega
          · exact Or.inr h
        · rintro (h | h)
          · left
            omega
          · exact Or.inr h

/-- After `reset_game()` the cells that test as set are the wall ring of the
playfield. -/
theorem test_position_reset_game (g : Game) (rnd : Random) (q : Position) :
    test_position (reset_game g rnd).dev q = true ↔ InGrid q ∧ OnWall q := by
  have hclear : test_position g.dev.clearDisplay q = false := by
    simp [test_position, Device.getPixel, Device.clearDisplay]
  simp only [reset_game, test_position_wallLoopY, test_position_wallLoopX, hclear,
    kGameWidth, kGameHeight, InGrid, OnWall]
  constructor
  · rintro (h | h | h)
    · omega
    · omega
    · cases h
  · rintro ⟨h, hw⟩
    rcases hw with hw | hw | hw | hw
    · left
      omega
    · left
      omega
    · right
      left
      omega
    · right
      left
      omega

/-! ## The log of the game-over path -/

theorem wallLoopX_log (n : Nat) : ∀ (x : Int) (d : Device),
    ∃ l, (wallLoopX n x d).log = l ++ d.log := by
  induction n with
  | zero => intro x d; exact ⟨[], rfl⟩
  | succ n ih =>
    intro x d
    obtain ⟨l, hl⟩ := ih (x + 1)
      (draw_square (draw_square d ⟨x, 0⟩ Color.WHITE) ⟨x, 31⟩ Color.WHITE)
    exact ⟨l ++ [Call.fillRect (x * 2) (31 * 2) 2 2 Color.WHITE,
      Call.fillRect (x * 2) (0 * 2) 2 2 Color.WHITE], by
        rw [wallLoopX, hl]; simp [draw_square, Device.fillRect]⟩

theorem wallLoopY_log (n : Nat) : ∀ (y : Int) (d : Device),
    ∃ l, (wallLoopY n y d).log = l ++ d.log := by
  induction n with
  | zero => intro y d; exact ⟨[], rfl⟩
  | succ n ih =>
    intro y d
    obtain ⟨l, hl⟩ := ih (y + 1)
      (draw_square (draw_square d ⟨0, y⟩ Color.WHITE) ⟨63, y⟩ Color.WHITE)
    exact ⟨l ++ [Call.fillRect (63 * 2) (y * 2) 2 2 Color.WHITE,
      Call.fillRect (0 * 2) (y * 2) 2 2 Color.WHITE], by
        rw [wallLoopY, hl]; simp [draw_square, Device.fillRect]⟩

/-- The calls of `reset_game()` are added in front of the log. -/
theorem reset_game_log (g : Game) (rnd : Random) :
    ∃ l, (reset_game g rnd).dev.log = l ++ g.dev.log := by
  obtain ⟨ly, hy⟩ := wallLoopY_log kGameHeight 0 (wallLoopX kGameWidth 0 g.dev.clearDisplay)
  obtain ⟨lx, hx⟩ := wallLoopX_log kGameWidth 0 g.dev.clearDisplay
  refine ⟨ly ++ lx ++ [Call.clearDisplay], ?_⟩
  show (wallLoopY kGameHeight 0 (wallLoopX kGameWidth 0 g.dev.clearDisplay)).log = _
  rw [hy, hx]
  simp [Device.clearDisplay]

/-- The calls of `play_gameover()` are added in front of the log, and among them the
score `size - kStartLength` is printed right after the text "Score: ". -/
theorem play_gameover_log (d : Device) (size : Int) :
    ∃ post pre, (play_gameover d size).log =
      post ++ [Call.printInt (size - kStartLength), Call.printText Text.score] ++ pre ++
        d.log := by
  by_cases h : size - kStartLength > d.eeprom
  · exact ⟨[Call.delay 200, Call.invertDisplay false, Call.delay 100, Call.invertDisplay true,
        Call.waitInput, Call.display, Call.printText Text.pressAnyButton, Call.setCursor 26 57,
        Call.printInt (size - kStartLength), Call.printText Text.highScore,
        Call.setCursor 26 57, Call.printText Text.newHighScore, Call.setCursor 26 57,
        Call.eepromPut (size - kStartLength)],
      [Call.setCursor 50 57, Call.drawBitmap Bitmap.GameOver, Call.clearDisplay,
        Call.delay 200, Call.invertDisplay false, Call.delay 100, Call.invertDisplay true],
      by simp [play_gameover, gameover_score, flash_screen, push_to_start, wait_for_input,
        Device.note, Device.paint, Device.clearDisplay, Device.eepromPut, h]⟩
  · exact ⟨[Call.delay 200, Call.invertDisplay false, Call.delay 100, Call.invertDisplay true,
        Call.waitInput, Call.display, Call.printText Text.pressAnyButton, Call.setCursor 26 57,
        Call.printInt d.eeprom, Call.printText Text.highScore, Call.setCursor 26 57],
      [Call.setCursor 50 57, Call.drawBitmap Bitmap.GameOver, Call.clearDisplay,
        Call.delay 200, Call.invertDisplay false, Call.delay 100, Call.invertDisplay true],
      by simp [play_gameover, gameover_score, flash_screen, push_to_start, wait_for_input,
        Device.note, Device.paint, Device.clearDisplay, Device.eepromPut, h]⟩

/-! ## Passes of `loop()` -/

/-- The loop of `render()` stays inside the array while the symbols it decodes are
within the capacity. -/
theorem renderLoop_some (p : Player) (hlen : p.tail.length = kMaxLength) (n : Nat) :
    ∀ (i : Nat) (tp : Position) (d : Device), i + n ≤ 4 * kMaxLength →
      ∃ r, p.renderLoop n i tp d = some r := by
  induction n with
  | zero => intro i tp d _; exact ⟨_, rfl⟩
  | succ n ih =>
    intro i tp d hi
    have hb : i >>> 2 < p.tail.length := by
      rw [Nat.shiftRight_eq_div_pow, hlen]
      norm_num
      omega
    have hs : (p.tail[i >>> 2] >>> ((i &&& 3) * 2)) &&& 3 < kDirPos.length := by
      rw [and_three]
      exact Nat.mod_lt _ (by decide)
    obtain ⟨r, hr⟩ := ih (i + 1)
      (tp.add kDirPos[(p.tail[i >>> 2] >>> ((i &&& 3) * 2)) &&& 3])
      (draw_square d (tp.add kDirPos[(p.tail[i >>> 2] >>> ((i &&& 3) * 2)) &&& 3])
        Color.WHITE) (by omega)
    refine ⟨r, ?_⟩
    rw [Player.renderLoop, List.getElem?_eq_getElem hb]
    simp only [Option.bind_eq_bind, Option.some_bind]
    rw [List.getElem?_eq_getElem hs]
    exact hr

/-- The method `render()` returns when `moved < size` or `size` is within the
capacity of the array. -/
theorem render_some (p : Player) (d : Device) (hlen : p.tail.length = kMaxLength)
    (h : p.moved < p.size ∨ p.size ≤ 4 * kMaxLength) : ∃ d', p.render d = some d' := by
  unfold Player.render
  by_cases hm : p.moved < p.size
  · exact ⟨_, if_pos hm⟩
  · have hsz : p.size ≤ 4 * kMaxLength := h.resolve_left hm
    obtain ⟨r, hr⟩ := renderLoop_some p hlen p.size.toNat 0 p.pos
      (draw_square d p.pos Color.WHITE) (by omega)
    refine ⟨draw_square r.2 r.1 Color.BLACK, ?_⟩
    simp only [if_neg hm, hr, Option.bind_eq_bind, Option.some_bind]

theorem dispatch_keeps (p : Player) (command : Option Char) (hd : p.direction < 4) :
    (dispatch p command).tail = p.tail ∧ (dispatch p command).size = p.size ∧
      (dispatch p command).moved = p.moved ∧ (dispatch p command).pos = p.pos ∧
      (dispatch p command).direction < 4 := by
  unfold dispatch
  cases command with
  | none => exact ⟨rfl, rfl, rfl, rfl, hd⟩
  | some c =>
    simp only
    split_ifs
    · exact ⟨rfl, rfl, rfl, rfl, Nat.mod_lt _ (by decide)⟩
    · exact ⟨rfl, rfl, rfl, rfl, Nat.mod_lt _ (by decide)⟩
    · exact ⟨rfl, rfl, rfl, rfl, show 0 < 4 by decide⟩
    · exact ⟨rfl, rfl, rfl, rfl, show 2 < 4 by decide⟩
    · exact ⟨rfl, rfl, rfl, rfl, hd⟩

/-- The function `render_game()` returns whenever `render()` does, and keeps the
player and the item. -/
theorem render_game_some (g : Game) (hlen : g.player.tail.length = kMaxLength)
    (h : g.player.moved < g.player.size ∨ g.player.size ≤ 4 * kMaxLength) :
    ∃ g', render_game g = some g' ∧ g'.player = g.player ∧ g'.item = g.item := by
  obtain ⟨d, hd⟩ := render_some g.player g.dev hlen h
  exact ⟨{ g with dev := (g.item.render d).note Call.display }, by
    simp only [render_game, hd, Option.bind_eq_bind, Option.some_bind], rfl, rfl⟩

/-- One pass of `loop()` from a player with an array of the declared length, a heading
in `0..3` and a size below the capacity: it returns, keeps these facts about the
array and the heading, adds one to `size` in the pickup branch and keeps `size` in
the move branch. -/
theorem loop_spec (g : Game) (command : Option Char) (rnd : Random)
    (hlen : g.player.tail.length = kMaxLength) (hd : g.player.direction < 4)
    (hsz : g.player.size < 4 * kMaxLength) :
    ∃ g' b, loop g command rnd = some (g', b) ∧
      g'.player.tail.length = kMaxLength ∧ g'.player.direction < 4 ∧
      (b = Branch.pickup → g'.player.size = g.player.size + 1) ∧
      (b = Branch.move → g'.player.size = g.player.size) := by
  obtain ⟨ht, hs, _, _, hdir⟩ := dispatch_keeps g.player command hd
  obtain ⟨p, _, hup, _, _, hpd, hsize, _, hplen, _⟩ :=
    update_spec (dispatch g.player command) (ht ▸ hlen) hdir
  have hug := update_game_eq { g with player := dispatch g.player command } rnd p hup
  have hfin : ∀ (g1 : Game) (b : Branch),
      update_game { g with player := dispatch g.player command } rnd = some (g1, b) →
      g1.player.tail.length = kMaxLength →
      (g1.player.moved < g1.player.size ∨ g1.player.size ≤ 4 * kMaxLength) →
      ∃ g', loop g command rnd = some (g', b) ∧ g'.player = g1.player := by
    intro g1 b h1 hl1 hr1
    obtain ⟨g2, hg2, hp2, _⟩ := render_game_some g1 hl1 hr1
    exact ⟨{ g2 with dev := g2.dev.note (Call.delay 100) }, by
      simp only [loop, h1, hg2, Option.bind_eq_bind, Option.some_bind], hp2⟩
  by_cases hhit : p.pos = g.item.pos
  · rw [if_pos hhit] at hug
    obtain ⟨g', hl, hp⟩ := hfin _ _ hug hplen (Or.inr (by
      show p.size + 1 ≤ _
      omega))
    refine ⟨g', Branch.pickup, hl, hp ▸ hplen, hp ▸ (hpd ▸ hdir), ?_, ?_⟩
    · intro _
      rw [hp]
      show p.size + 1 = _
      omega
    · intro h
      cases h
  · rw [if_neg hhit] at hug
    by_cases hpix : test_position g.dev p.pos = true
    · rw [if_pos hpix] at hug
      obtain ⟨g', hl, hp⟩ := hfin _ _ hug (by simp [reset_game, Player.reset])
        (Or.inl (by simp [reset_game, Player.reset, kStartLength]))
      refine ⟨g', Branch.gameover, hl, ?_, ?_, ?_, ?_⟩
      · rw [hp]
        simp [reset_game, Player.reset]
      · rw [hp]
        simp [reset_game, Player.reset]
      · intro h
        cases h
      · intro h
        cases h
    · rw [if_neg hpix] at hug
      obtain ⟨g', hl, hp⟩ := hfin _ _ hug hplen (Or.inr (by
        show p.size ≤ _
        omega))
      refine ⟨g', Branch.move, hl, hp ▸ hplen, hp ▸ (hpd ▸ hdir), ?_, ?_⟩
      · intro h
        cases h
      · intro _
        rw [hp]
        show p.size = _
        omega

/-- A pass of `loop()` without a command in which the head steps onto the item. -/
theorem loop_pickup (g : Game) (rnd : Random) (v : Position)
    (hlen : g.player.tail.length = kMaxLength) (hd : g.player.direction < 4)
    (hsz : g.player.size < 4 * kMaxLength)
    (hv : kDirPos[g.player.direction]? = some v)
    (hhit : g.player.pos.add v = g.item.pos) :
    ∃ g', loop g none rnd = some (g', Branch.pickup) ∧
      g'.player.tail.length = kMaxLength ∧ g'.player.direction = g.player.direction ∧
      g'.player.pos = g.player.pos.add v ∧ g'.player.size = g.player.size + 1 ∧
      g'.item = g.item.spawn rnd := by
  obtain ⟨p, v', hup, hv', hpos, hpd, hsize, _, hplen, _⟩ := update_spec g.player hlen hd
  have hvv : v' = v := Option.some.inj (hv'.symm.trans hv)
  subst hvv
  have hug := update_game_eq g rnd p hup
  rw [if_pos (hpos.trans hhit)] at hug
  obtain ⟨g2, hg2, hp2, hi2⟩ :=
    render_game_some { g with player := p.grow, item := g.item.spawn rnd } hplen
      (Or.inr (by
        show p.size + 1 ≤ _
        omega))
  refine ⟨{ g2 with dev := g2.dev.note (Call.delay 100) }, ?_, ?_, ?_, ?_, ?_, ?_⟩
  · have hdis : ({ g with player := dispatch g.player none } : Game) = g := rfl
    simp only [loop, hdis, hug, hg2, Option.bind_eq_bind, Option.some_bind]
  · exact hp2 ▸ hplen
  · exact hp2 ▸ hpd
  · exact hp2 ▸ hpos
  · show g2.player.size = _
    rw [hp2]
    show p.size + 1 = _
    rw [hsize]
  · exact hi2

/-- A run of passes without game over from a player with an array of the declared
length, a heading in `0..3` and enough room below the capacity: every pass completes
and `size` grows by the number of pickups. -/
theorem runLoop_size (inputs : List TickInput) : ∀ g : Game,
    g.player.tail.length = kMaxLength → g.player.direction < 4 →
    Branch.gameover ∉ (runLoop g inputs).1 →
    g.player.size + ((runLoop g inputs).1.count Branch.pickup : Int) < 4 * kMaxLength →
    ∃ g', (runLoop g inputs).2 = some g' ∧ (runLoop g inputs).1.length = inputs.length ∧
      g'.player.size = g.player.size + ((runLoop g inputs).1.count Branch.pickup : Int) := by
  induction inputs with
  | nil =>
    intro g _ _ _ _
    exact ⟨g, rfl, rfl, by simp [runLoop]⟩
  | cons inp rest ih =>
    intro g hlen hd hno hk
    have hsz : g.player.size < 4 * kMaxLength := by
      have : (0 : Int) ≤ ((runLoop g (inp :: rest)).1.count Branch.pickup : Int) :=
        Int.natCast_nonneg _
      omega
    obtain ⟨g1, b, hloop, hlen1, hd1, hpick, hmove⟩ :=
      loop_spec g inp.command inp.rnd hlen hd hsz
    have hrun : runLoop g (inp :: rest) = (b :: (runLoop g1 rest).1, (runLoop g1 rest).2) := by
      simp only [runLoop, hloop]
    rw [hrun] at hno hk ⊢
    have hb : b ≠ Branch.gameover := fun h => hno (by simp [h])
    have hno1 : Branch.gameover ∉ (runLoop g1 rest).1 := fun h => hno (by simp [h])
    cases b with
    | gameover => exact absurd rfl hb
    | pickup =>
      have hs1 := hpick rfl
      simp only [List.count_cons_self, Nat.cast_add, Nat.cast_one] at hk ⊢
      obtain ⟨g', hfin, hl, hsize⟩ := ih g1 hlen1 hd1 hno1 (by omega)
      exact ⟨g', hfin, by simp [hl], by omega⟩
    | move =>
      have hs1 := hmove rfl
      have hc : (Branch.move :: (runLoop g1 rest).1).count Branch.pickup =
          (runLoop g1 rest).1.count Branch.pickup :=
        List.count_cons_of_ne (by decide) _
      rw [hc] at hk ⊢
      obtain ⟨g', hfin, hl, hsize⟩ := ih g1 hlen1 hd1 hno1 (by omega)
      exact ⟨g', hfin, by simp [hl], by omega⟩

/-- Unfolding a run at a pass that completes. -/
theorem runLoop_cons (g : Game) (inp : TickInput) (rest : List TickInput) (r : Game × Branch)
    (h : loop g inp.command inp.rnd = some r) :
    runLoop g (inp :: rest) = (r.2 :: (runLoop r.1 rest).1, (runLoop r.1 rest).2) := by
  simp only [runLoop, h]

/-- In `feastGame` the three passes of `feastTicks` each pick up an item. -/
theorem feast_branches :
    (runLoop feastGame feastTicks).1 = [Branch.pickup, Branch.pickup, Branch.pickup] := by
  obtain ⟨g1, h1, hlen1, hd1, hpos1, hsz1, hit1⟩ :=
    loop_pickup feastGame (rowRandom 34) ⟨1, 0⟩ (by simp [feastGame, startPlayer, Player.reset])
      (by decide) (by decide) rfl rfl
  have hdir1 : g1.player.direction = 1 := hd1
  obtain ⟨g2, h2, hlen2, hd2, hpos2, hsz2, hit2⟩ :=
    loop_pickup g1 (rowRandom 35) ⟨1, 0⟩ hlen1 (by rw [hdir1]; decide)
      (by rw [hsz1]; decide) (by rw [hdir1]; rfl) (by rw [hpos1, hit1]; rfl)
  have hdir2 : g2.player.direction = 1 := hd2.trans hdir1
  obtain ⟨g3, h3, _⟩ :=
    loop_pickup g2 (rowRandom 36) ⟨1, 0⟩ hlen2 (by rw [hdir2]; decide)
      (by rw [hsz2, hsz1]; decide) (by rw [hdir2]; rfl)
      (by rw [hpos2, hit2, hpos1]; rfl)
  have e1 := runLoop_cons feastGame ⟨none, rowRandom 34⟩
    [⟨none, rowRandom 35⟩, ⟨none, rowRandom 36⟩] (g1, Branch.pickup) h1
  have e2 := runLoop_cons g1 ⟨none, rowRandom 35⟩ [⟨none, rowRandom 36⟩] (g2, Branch.pickup) h2
  have e3 := runLoop_cons g2 ⟨none, rowRandom 36⟩ [] (g3, Branch.pickup) h3
  have e4 : runLoop g3 [] = ([], some g3) := rfl
  unfold feastTicks
  rw [e1, e2, e3, e4]

/-- The vector of the opposite ordinal is the negated vector of the ordinal. -/
theorem kDirPos_negation (d : Nat) (hd : d < 4) :
    ∃ v w, kDirPos[d]? = some v ∧ kDirPos[(d + 2) % 4]? = some w ∧
      w.x = -v.x ∧ w.y = -v.y := by
  have h : d = 0 ∨ d = 1 ∨ d = 2 ∨ d = 3 := by omega
  rcases h with h | h | h | h <;> subst h <;> exact ⟨_, _, rfl, rfl, by decide, by decide⟩

/-- On an array shorter than `kMaxLength` the first read of `update()` is out of
range. -/
theorem update_short (p : Player) (h : p.tail.length < kMaxLength) : p.update = none := by
  have hnone : p.tail[kMaxLength - 1]? = none :=
    List.getElem?_eq_none (by
      have : kMaxLength = 464 := rfl
      omega)
  have hloop : shiftLoop (kMaxLength - 1) p.tail = none := by
    show shiftLoop (462 + 1) p.tail = none
    rw [shiftLoop]
    have h463 : p.tail[462 + 1]? = none := hnone
    rw [h463]
    rfl
  simp only [Player.update, hloop, Option.bind_eq_bind, Option.none_bind]

/-! ## What `render()` reads and draws -/

/-- One iteration of the loop of `render()`, written with the symbol it decodes. -/
theorem renderLoop_succ (p : Player) (n i : Nat) (tp : Position) (d : Device) :
    p.renderLoop (n + 1) i tp d =
      (symbolAt p.tail i).bind fun s => (kDirPos[s]?).bind fun v =>
        p.renderLoop n (i + 1) (tp.add v) (draw_square d (tp.add v) Color.WHITE) := by
  rw [← decode_eq_symbolAt, Player.renderLoop]
  cases p.tail[i >>> 2]? <;> rfl

/-- The loop of `render()` reads only the symbols `i`, ..., `i + n - 1`. -/
theorem renderLoop_congr (p1 p2 : Player) (n : Nat) :
    ∀ (i : Nat) (tp : Position) (d : Device),
      (∀ k, i ≤ k → k < i + n → symbolAt p1.tail k = symbolAt p2.tail k) →
      p1.renderLoop n i tp d = p2.renderLoop n i tp d := by
  induction n with
  | zero => intro i tp d _; rfl
  | succ n ih =>
    intro i tp d h
    rw [renderLoop_succ, renderLoop_succ, h i (Nat.le_refl i) (by omega)]
    cases symbolAt p2.tail i with
    | none => rfl
    | some c =>
      simp only [Option.some_bind]
      cases kDirPos[c]? with
      | none => rfl
      | some v =>
        simp only [Option.some_bind]
        exact ih _ _ _ (fun k hk1 hk2 => h k (by omega) (by omega))

/-- The cells that test as set after the loop of `render()`: the cells the walk
visits, as far as they lie on the playfield, and the cells set before. -/
theorem renderLoop_lit (p : Player) (n : Nat) :
    ∀ (i : Nat) (tp : Position) (d : Device) (r : Position × Device),
      p.renderLoop n i tp d = some r →
      ∀ q, test_position r.2 q = true ↔
        (∃ k, 1 ≤ k ∧ k ≤ n ∧ tailWalk p.tail k i tp = some q ∧ InGrid q) ∨
          test_position d q = true := by
  induction n with
  | zero =>
    intro i tp d r h q
    cases Option.some.inj h
    constructor
    · exact Or.inr
    · rintro (⟨k, hk1, hk0, _⟩ | h)
      · omega
      · exact h
  | succ n ih =>
    intro i tp d r h q
    rw [renderLoop_succ] at h
    obtain ⟨c, hc, h⟩ := Option.bind_eq_some.mp h
    obtain ⟨v, hv, h⟩ := Option.bind_eq_some.mp h
    have hstep : ∀ k, tailWalk p.tail (k + 1) i tp = tailWalk p.tail k (i + 1) (tp.add v) := by
      intro k
      rw [tailWalk, hc]
      simp only [Option.bind_eq_bind, Option.some_bind, hv]
    rw [ih _ _ _ _ h q, test_position_draw_square]
    constructor
    · rintro (⟨k, hk1, hkn, hw, hg⟩ | hd)
      · exact Or.inl ⟨k + 1, by omega, by omega, (hstep k).trans hw, hg⟩
      · by_cases hq : tp.add v = q ∧ InGrid q
        · exact Or.inl ⟨1, le_refl 1, by omega, by rw [hstep 0, tailWalk, hq.1], hq.2⟩
        · rw [if_neg hq] at hd
          exact Or.inr hd
    · rintro (⟨k, hk1, hkn, hw, hg⟩ | hd)
      · obtain ⟨k', rfl⟩ : ∃ k', k = k' + 1 := ⟨k - 1, by omega⟩
        rw [hstep k'] at hw
        rcases Nat.eq_zero_or_pos k' with hz | hz
        · subst hz
          rw [tailWalk] at hw
          exact Or.inr (by rw [if_pos ⟨Option.some.inj hw, hg⟩]; rfl)
        · exact Or.inl ⟨k', hz, by omega, hw, hg⟩
      · right
        by_cases hq : tp.add v = q ∧ InGrid q
        · rw [if_pos hq]
          rfl
        · rw [if_neg hq]
          exact hd

/-- The cells that test as set after `render()` when `moved` has reached `size` and
the walk ends at `c`: every cell the walk visits (the head is cell 0) that lies on the
playfield, and every cell set before, except the cell `c`. -/
theorem render_lit (p : Player) (d : Device) (c : Position) (hm : ¬ p.moved < p.size)
    (hc : tailWalk p.tail p.size.toNat 0 p.pos = some c) :
    ∃ d', p.render d = some d' ∧ ∀ q, test_position d' q = true ↔
      ¬ (c = q ∧ InGrid q) ∧
        ((∃ k, k ≤ p.size.toNat ∧ tailWalk p.tail k 0 p.pos = some q ∧ InGrid q) ∨
          test_position d q = true) := by
  rw [← renderLoop_fst p _ 0 p.pos (draw_square d p.pos Color.WHITE)] at hc
  obtain ⟨r, hr, hfst⟩ := Option.map_eq_some'.mp hc
  have hlit := renderLoop_lit p _ _ _ _ r hr
  refine ⟨draw_square r.2 r.1 Color.BLACK, ?_, ?_⟩
  · simp only [Player.render, if_neg hm, hr, Option.bind_eq_bind, Option.some_bind]
  · intro q
    rw [test_position_draw_square, hfst]
    by_cases hq : c = q ∧ InGrid q
    · rw [if_pos hq]
      simp only [hq, not_true_eq_false, and_self, false_and, iff_false]
      decide
    · rw [if_neg hq, hlit q, test_position_draw_square]
      simp only [hq, not_false_eq_true, true_and]
      constructor
      · rintro (⟨k, _, hkn, hw, hg⟩ | hd)
        · exact Or.inl ⟨k, hkn, hw, hg⟩
        · by_cases hp : p.pos = q ∧ InGrid q
          · exact Or.inl ⟨0, Nat.zero_le _, by rw [tailWalk, hp.1], hp.2⟩
          · rw [if_neg hp] at hd
            exact Or.inr hd
      · rintro (⟨k, hkn, hw, hg⟩ | hd)
        · rcases Nat.eq_zero_or_pos k with hz | hz
          · subst hz
            rw [tailWalk] at hw
            exact Or.inr (by rw [if_pos ⟨Option.some.inj hw, hg⟩]; rfl)
          · exact Or.inl ⟨k, hz, hkn, hw, hg⟩
        · right
          by_cases hp : p.pos = q ∧ InGrid q
          · rw [if_pos hp]
            rfl
          · rw [if_neg hp]
            exact hd

set_option maxRecDepth 8000 in
/-- The walk of `shortPlayer` visits `shortCells`. -/
theorem shortPlayer_walk (k : Nat) (hk : k ≤ 2) :
    tailWalk shortPlayer.tail k 0 shortPlayer.pos = some (shortCells k) := by
  have h : k = 0 ∨ k = 1 ∨ k = 2 := by omega
  rcases h with h | h | h <;> subst h <;> rfl

/-! ## The cells view of a round -/

theorem mem_take_iff_getElem? (l : List Position) : ∀ (n : Nat) (q : Position),
    q ∈ l.take n ↔ ∃ i, i < n ∧ l[i]? = some q := by
  induction l with
  | nil =>
    intro n q
    simp
  | cons a l ih =>
    intro n q
    cases n with
    | zero => simp
    | succ n =>
      rw [List.take_succ_cons, List.mem_cons, ih n q]
      constructor
      · rintro (h | ⟨i, hi, hq⟩)
        · exact ⟨0, Nat.succ_pos n, by simp [h]⟩
        · exact ⟨i + 1, by omega, by simpa using hq⟩
      · rintro ⟨i, hi, hq⟩
        cases i with
        | zero =>
          left
          simpa using hq.symm
        | succ i =>
          right
          exact ⟨i, by omega, by simpa using hq⟩

theorem paint_true_iff (lit : Position → Bool) (c q : Position) :
    paint lit c true q = true ↔ (c = q ∧ InGrid q) ∨ lit q = true := by
  unfold paint
  by_cases h : c = q ∧ InGrid q
  · rw [if_pos h]
    exact ⟨fun _ => Or.inl h, fun _ => rfl⟩
  · rw [if_neg h]
    exact ⟨Or.inr, fun h' => h'.resolve_left h⟩

theorem paint_false_iff (lit : Position → Bool) (c q : Position) :
    paint lit c false q = true ↔ ¬ (c = q ∧ InGrid q) ∧ lit q = true := by
  unfold paint
  by_cases h : c = q ∧ InGrid q
  · rw [if_pos h]
    exact ⟨fun h' => absurd h' (by decide), fun h' => absurd h h'.1⟩
  · rw [if_neg h]
    exact ⟨fun h' => ⟨h, h'⟩, fun h' => h'.2⟩

theorem foldl_paint_iff (cs : List Position) : ∀ (lit : Position → Bool) (q : Position),
    (cs.foldl (fun l c => paint l c true) lit) q = true ↔
      (q ∈ cs ∧ InGrid q) ∨ lit q = true := by
  induction cs with
  | nil =>
    intro lit q
    simp
  | cons c cs ih =>
    intro lit q
    rw [List.foldl_cons, ih, paint_true_iff, List.mem_cons]
    constructor
    · rintro (⟨h, hg⟩ | ⟨h, hg⟩ | h)
      · exact Or.inl ⟨Or.inr h, hg⟩
      · exact Or.inl ⟨Or.inl h.symm, hg⟩
      · exact Or.inr h
    · rintro (⟨h | h, hg⟩ | h)
      · exact Or.inr (Or.inl ⟨h.symm, hg⟩)
      · exact Or.inl ⟨h, hg⟩
      · exact Or.inr (Or.inr h)

/-- The vector of an ordinal is a unit step. -/
theorem kDirPos_unit (d : Nat) (hd : d < 4) :
    ∃ v, kDirPos[d]? = some v ∧ kDirPos.getD d ⟨0, 0⟩ = v ∧
      ((v.x = 0 ∧ (v.y = 1 ∨ v.y = -1)) ∨ (v.y = 0 ∧ (v.x = 1 ∨ v.x = -1))) := by
  have h : d = 0 ∨ d = 1 ∨ d = 2 ∨ d = 3 := by omega
  rcases h with h | h | h | h <;> subst h <;> exact ⟨_, rfl, rfl, by decide⟩

theorem steer_direction (p : Player) (t : Steer) :
    (p.steer t).direction = steerDir p.direction t ∧ (p.steer t).pos = p.pos ∧
      (p.steer t).size = p.size ∧ (p.steer t).moved = p.moved ∧
      (p.steer t).tail = p.tail := by
  cases t <;> exact ⟨rfl, rfl, rfl, rfl, rfl⟩

theorem steerDir_lt (d : Nat) (t : Steer) (hd : d < 4) : steerDir d t < 4 := by
  cases t
  · exact hd
  · exact Nat.mod_lt _ (by decide)
  · exact Nat.mod_lt _ (by decide)

theorem tracks_steer (p : Player) (hist : List Position) (t : Steer) (h : Tracks p hist) :
    Tracks (p.steer t) hist := by
  cases t
  · exact h
  · exact tracks_turn_left p hist h
  · exact tracks_turn_right p hist h

/-- The cells that the walk of a tracked player visits in its first `n` steps are the
head and the first `n` entries of the history. -/
theorem tracks_walk_cells (p : Player) (hist : List Position) (h : Tracks p hist) (n : Nat)
    (hn : n ≤ hist.length) (hcap : n ≤ 4 * kMaxLength) (q : Position) :
    (∃ k, k ≤ n ∧ tailWalk p.tail k 0 p.pos = some q) ↔ p.pos = q ∨ q ∈ hist.take n := by
  rw [mem_take_iff_getElem?]
  constructor
  · rintro ⟨k, hk, hw⟩
    cases k with
    | zero =>
      rw [tailWalk] at hw
      exact Or.inl (Option.some.inj hw)
    | succ k =>
      rw [h.2.2 k (by omega) (by omega)] at hw
      exact Or.inr ⟨k, by omega, hw⟩
  · rintro (hq | ⟨i, hi, hq⟩)
    · exact ⟨0, Nat.zero_le n, by rw [tailWalk, hq]⟩
    · exact ⟨i + 1, by omega, by rw [h.2.2 i (by omega) (by omega)]; exact hq⟩

/-- One tick of the round is one tick of its cells view. -/
theorem sim_tick (s : Body) (a : Trail) (t : Steer) (h : Sim s a) :
    ∃ s', s.tick t = some s' ∧ Sim s' (a.tick t) := by
  obtain ⟨htr, hsize, hmoved, hdir, hcells, hclear, hlit⟩ := h
  obtain ⟨hsd, hsp, hss, hsm, _⟩ := steer_direction s.player t
  have htr1 : Tracks (s.player.steer t) s.heads := tracks_steer s.player s.heads t htr
  obtain ⟨p, v, hup, hv, hpos, hpd, hps, hpm, _⟩ :=
    update_spec (s.player.steer t) htr1.1 htr1.2.1
  obtain ⟨p2, hup2, _, _, htr2⟩ := tracks_update (s.player.steer t) s.heads htr1
  have hpp : p2 = p := Option.some.inj (hup2.symm.trans hup)
  subst hpp
  rw [hsp] at htr2 hpos
  have hhead : a.nextHead t = p2.pos := by
    unfold Trail.nextHead
    rw [hcells, hpos, ← hdir, ← hsd]
    simp [List.getD_eq_getElem?_getD, hv]
  have hlen : a.cells.length = s.heads.length + 1 := by rw [hcells]; rfl
  have hsize2 : p2.size = 6 := by rw [hps, hss, hsize]
  have hmoved2 : p2.moved = min ((s.heads.length : Int) + 1) 6 := by
    rw [hpm, hsm, hss, hsize, hmoved]
    split_ifs <;> omega
  have hclear2 : (s.clear && !test_position s.dev p2.pos) = (a.tick t).clear := by
    show _ = (a.clear && !a.lit _)
    rw [hhead, hclear, hlit]
  have hfin : ∀ d, p2.render s.dev = some d →
      (∀ q, test_position d q = (a.tick t).lit q) →
      ∃ s', s.tick t = some s' ∧ Sim s' (a.tick t) := by
    intro d hd hl
    refine ⟨Body.mk p2 d (s.player.pos :: s.heads)
        (s.clear && !test_position s.dev p2.pos), ?_,
      htr2, hsize2, ?_, hpd.trans (hsd.trans (by rw [hdir]; rfl)), ?_, hclear2, hl⟩
    · simp only [Body.tick, hup, hd, Option.bind_eq_bind, Option.some_bind]
    · rw [hmoved2]
      simp
    · show _ :: a.cells = _
      rw [hhead, hcells]
  by_cases hn : a.cells.length < 6
  · have hm : p2.moved < p2.size := by rw [hmoved2, hsize2]; omega
    refine hfin (draw_square s.dev p2.pos Color.WHITE) ?_ ?_
    · simp only [Player.render, if_pos hm]
    · intro q
      show _ = (if a.cells.length < 6 then paint a.lit _ true else _) q
      rw [if_pos hn, hhead, test_position_draw_square, hlit]
      rfl
  · have hm : ¬ p2.moved < p2.size := by rw [hmoved2, hsize2]; omega
    have h5 : 5 < a.cells.length := by omega
    have hc5 : a.cells[5]? = some (a.cells.getD 5 ⟨0, 0⟩) := by
      simp [List.getElem?_eq_getElem h5]
    have hcap : (6 : Nat) ≤ 4 * kMaxLength := by decide
    have hwalk6 : tailWalk p2.tail p2.size.toNat 0 p2.pos = some (a.cells.getD 5 ⟨0, 0⟩) := by
      rw [hsize2]
      show tailWalk p2.tail (5 + 1) 0 p2.pos = _
      rw [htr2.2.2 5 (by rw [← hcells]; exact h5) (by decide), ← hcells]
      exact hc5
    obtain ⟨d, hd, hl⟩ := render_lit p2 s.dev _ hm hwalk6
    refine hfin d hd ?_
    intro q
    rw [Bool.eq_iff_iff, hl q]
    show _ ↔ (if a.cells.length < 6 then _ else
      paint ((a.cells.take 6).foldl (fun l c => paint l c true) (paint a.lit _ true))
        (a.cells.getD 5 ⟨0, 0⟩) false) q = true
    rw [if_neg hn, paint_false_iff, foldl_paint_iff, paint_true_iff, hhead, hsize2, hlit]
    have hcells6 : (∃ k, k ≤ 6 ∧ tailWalk p2.tail k 0 p2.pos = some q) ↔
        p2.pos = q ∨ q ∈ a.cells.take 6 := by
      rw [hcells]
      exact tracks_walk_cells p2 _ htr2 6 (by rw [← hcells]; omega) hcap q
    have hlhs : (∃ k, k ≤ Int.toNat 6 ∧ tailWalk p2.tail k 0 p2.pos = some q ∧ InGrid q) ↔
        (p2.pos = q ∨ q ∈ a.cells.take 6) ∧ InGrid q := by
      rw [← hcells6]
      constructor
      · rintro ⟨k, hk, hw, hg⟩
        exact ⟨⟨k, hk, hw⟩, hg⟩
      · rintro ⟨⟨k, hk, hw⟩, hg⟩
        exact ⟨k, hk, hw, hg⟩
    rw [hlhs]
    refine and_congr_right fun _ => ?_
    constructor
    · rintro (⟨h | h, hg⟩ | h)
      · exact Or.inr (Or.inl ⟨h, hg⟩)
      · exact Or.inl ⟨h, hg⟩
      · exact Or.inr (Or.inr h)
    · rintro (⟨h, hg⟩ | ⟨h, hg⟩ | h)
      · exact Or.inl ⟨Or.inr h, hg⟩
      · exact Or.inl ⟨Or.inl h, hg⟩
      · exact Or.inr h

theorem sim_start (g : Game) (rnd : Random) : Sim (Body.start g rnd) Trail.start := by
  refine ⟨tracks_reset g.player kStartLength, rfl, rfl, rfl, rfl, rfl, ?_⟩
  intro q
  rw [Bool.eq_iff_iff]
  show test_position (reset_game g rnd).dev q = true ↔ decide (InGrid q ∧ OnWall q) = true
  rw [test_position_reset_game, decide_eq_true_iff]

/-- A run of the round is the run of its cells view; every tick returns. -/
theorem sim_run (steers : List Steer) : ∀ (s : Body) (a : Trail), Sim s a →
    ∃ s', Body.run s steers = some s' ∧ Sim s' (Trail.run a steers) := by
  induction steers with
  | nil => intro s a h; exact ⟨s, rfl, h⟩
  | cons t ts ih =>
    intro s a h
    obtain ⟨s1, h1, hs1⟩ := sim_tick s a t h
    obtain ⟨s', h', hs'⟩ := ih s1 (a.tick t) hs1
    exact ⟨s', by simp only [Body.run, h1, Option.some_bind, h'], hs'⟩

theorem trail_run_length (steers : List Steer) : ∀ a : Trail,
    (Trail.run a steers).cells.length = a.cells.length + steers.length := by
  induction steers with
  | nil => intro a; rfl
  | cons t ts ih =>
    intro a
    rw [Trail.run, ih]
    show (a.nextHead t :: a.cells).length + ts.length = _
    simp only [List.length_cons]
    omega

theorem trail_run_clear (steers : List Steer) : ∀ a : Trail,
    (Trail.run a steers).clear = true → a.clear = true := by
  induction steers with
  | nil => intro a h; exact h
  | cons t ts ih =>
    intro a h
    have h1 : (a.clear && !a.lit (a.nextHead t)) = true := ih (a.tick t) h
    rw [Bool.and_eq_true] at h1
    exact h1.1

theorem good_start : Good Trail.start := by
  refine ⟨by decide, rfl, ?_, ?_, ?_, ?_⟩
  · intro q hq
    have : q = ⟨32, 16⟩ := by simpa [Trail.start] using hq
    subst this
    decide
  · intro i q hq
    cases i with
    | zero =>
      have : q = ⟨32, 16⟩ := by simpa [Trail.start] using hq.symm
      subst this
      decide
    | succ i => simp [Trail.start] at hq
  · intro i j b c _ _ hj
    have : Trail.start.cells.length = 1 := rfl
    omega
  · intro q
    show decide (InGrid q ∧ OnWall q) = true ↔ _
    rw [decide_eq_true_iff]
    simp [Trail.start]

/-- When the head enters a clear cell, that cell is an interior cell and its parity is
the opposite of the parity of the cell it leaves. -/
theorem nextHead_facts (a : Trail) (t : Steer) (hg : Good a)
    (hnl : a.lit (a.nextHead t) = false) :
    Interior (a.nextHead t) ∧
      ((a.nextHead t).x + (a.nextHead t).y + (a.cells.length : Int) + 1) % 2 = 1 := by
  obtain ⟨hd, hlast, hint, hpar, _, hlitc⟩ := hg
  obtain ⟨v, _, hvD, hunit⟩ := kDirPos_unit (steerDir a.dir t) (steerDir_lt a.dir t hd)
  have hne : a.cells ≠ [] := by
    intro h
    rw [h] at hlast
    cases hlast
  obtain ⟨h0, rest, hH⟩ := List.exists_cons_of_ne_nil hne
  have hnext : a.nextHead t = h0.add v := by
    unfold Trail.nextHead
    rw [hH, hvD]
    rfl
  have hi0 : Interior h0 := hint h0 (by rw [hH]; exact List.mem_cons_self _ _)
  have hp0 := hpar 0 h0 (by rw [hH]; exact List.getElem?_cons_zero)
  simp only [Interior] at hi0
  simp only [Nat.cast_zero, add_zero] at hp0
  have hgrid : InGrid (h0.add v) := by
    simp only [InGrid, Position.add]
    rcases hunit with ⟨h1, h2 | h2⟩ | ⟨h1, h2 | h2⟩ <;> omega
  have hnw : ¬ OnWall (h0.add v) := by
    intro hw
    have hl := (hlitc (h0.add v)).mpr ⟨hgrid, Or.inl hw⟩
    rw [← hnext, hnl] at hl
    cases hl
  rw [hnext]
  simp only [InGrid, OnWall, Position.add] at hgrid hnw
  simp only [Interior, Position.add]
  constructor
  · omega
  · rcases hunit with ⟨h1, h2 | h2⟩ | ⟨h1, h2 | h2⟩ <;> omega

/-- The first six cells of a list are its first five cells and cell 5. -/
theorem mem_take_six (l : List Position) (c q : Position) (h5 : l[5]? = some c) :
    q ∈ l.take 6 ↔ q ∈ l.take 5 ∨ c = q := by
  rw [mem_take_iff_getElem?, mem_take_iff_getElem?]
  constructor
  · rintro ⟨i, hi, hq⟩
    by_cases h : i < 5
    · exact Or.inl ⟨i, h, hq⟩
    · have hi5 : i = 5 := by omega
      subst hi5
      exact Or.inr (Option.some.inj (h5.symm.trans hq))
  · rintro (⟨i, hi, hq⟩ | h)
    · exact ⟨i, by omega, hq⟩
    · exact ⟨5, by decide, by rw [h5, h]⟩

theorem mem_take_mono (l : List Position) (m n : Nat) (hmn : m ≤ n) (q : Position)
    (h : q ∈ l.take m) : q ∈ l.take n := by
  rw [mem_take_iff_getElem?] at h ⊢
  obtain ⟨i, hi, hq⟩ := h
  exact ⟨i, by omega, hq⟩

/-- A tick in which the head enters a clear cell keeps the invariant of the cells
view. -/
theorem good_tick (a : Trail) (t : Steer) (hg : Good a)
    (hclear : (a.tick t).clear = true) : Good (a.tick t) := by
  have hnl : a.lit (a.nextHead t) = false := by
    have h : (a.clear && !a.lit (a.nextHead t)) = true := hclear
    rw [Bool.and_eq_true, Bool.not_eq_true'] at h
    exact h.2
  obtain ⟨hint0, hpar0⟩ := nextHead_facts a t hg hnl
  obtain ⟨hd, hlast, hint, hpar, hdist, hlitc⟩ := hg
  have hne : a.cells ≠ [] := by
    intro h
    rw [h] at hlast
    cases hlast
  have hlen : 0 < a.cells.length := List.length_pos.mpr hne
  have hcells : (a.tick t).cells = a.nextHead t :: a.cells := rfl
  have hgrid : ∀ q, Interior q → InGrid q ∧ ¬ OnWall q := by
    intro q hq
    simp only [Interior] at hq
    simp only [InGrid, OnWall]
    omega
  refine ⟨steerDir_lt a.dir t hd, ?_, ?_, ?_, ?_, ?_⟩
  · obtain ⟨h0, rest, hH⟩ := List.exists_cons_of_ne_nil hne
    show (a.nextHead t :: a.cells).getLast? = _
    rw [hH, List.getLast?_cons_cons, ← hH]
    exact hlast
  · intro q hq
    rcases List.mem_cons.mp hq with h | h
    · rw [h]
      exact hint0
    · exact hint q h
  · intro i q hq
    show (q.x + q.y + (i : Int) + ((a.nextHead t :: a.cells).length : Int)) % 2 = 1
    rw [List.length_cons]
    rw [hcells] at hq
    cases i with
    | zero =>
      rw [List.getElem?_cons_zero] at hq
      have hq' : a.nextHead t = q := Option.some.inj hq
      rw [← hq']
      push_cast
      omega
    | succ i =>
      rw [List.getElem?_cons_succ] at hq
      have h := hpar i q hq
      push_cast
      omega
  · intro i j b c hij hj6 hjl hb hc
    have hjl' : j + 1 < a.cells.length + 1 := hjl
    rw [hcells] at hb hc
    cases j with
    | zero => omega
    | succ j =>
      rw [List.getElem?_cons_succ] at hc
      have hc' : a.cells[j]? = some c := hc
      cases i with
      | succ i =>
        rw [List.getElem?_cons_succ] at hb
        exact hdist i j b c (by omega) (by omega) (by omega) hb hc'
      | zero =>
        rw [List.getElem?_cons_zero] at hb
        have hb' : a.nextHead t = b := Option.some.inj hb
        intro hbc
        have hpc := hpar j c hc'
        rw [hb', hbc] at hpar0
        have hlc : a.lit c = true :=
          (hlitc c).mpr ⟨(hgrid c (hint c (List.getElem?_mem hc'))).1,
            Or.inr ⟨(mem_take_iff_getElem? _ _ _).mpr ⟨j, by omega, hc'⟩, fun h6 => by
              have hp6 := hpar 6 c h6
              push_cast at hp6
              omega⟩⟩
        rw [hb', hbc, hlc] at hnl
        cases hnl
  · intro q
    show (if a.cells.length < 6 then paint a.lit (a.nextHead t) true
      else paint ((a.cells.take 6).foldl (fun l c => paint l c true)
        (paint a.lit (a.nextHead t) true)) (a.cells.getD 5 ⟨0, 0⟩) false) q = true ↔
      InGrid q ∧ (OnWall q ∨
        (q ∈ (a.nextHead t :: a.cells).take (min ((a.nextHead t :: a.cells).length - 1) 6) ∧
          (a.nextHead t :: a.cells)[6]? ≠ some q))
    rw [List.length_cons, Nat.add_sub_cancel, List.getElem?_cons_succ]
    by_cases hn : a.cells.length < 6
    · have hm1 : min (a.cells.length - 1) 6 = a.cells.length - 1 := by omega
      have hm2 : min a.cells.length 6 = (a.cells.length - 1) + 1 := by omega
      have h6 : a.cells[6]? = none := List.getElem?_eq_none (by omega)
      have h5 : a.cells[5]? = none := List.getElem?_eq_none (by omega)
      rw [if_pos hn, paint_true_iff, hlitc q, hm1, hm2, List.take_succ_cons, h6, h5,
        List.mem_cons]
      constructor
      · rintro (⟨h, hq⟩ | ⟨hq, hw | ⟨hm, _⟩⟩)
        · exact ⟨hq, Or.inr ⟨Or.inl h.symm, by simp⟩⟩
        · exact ⟨hq, Or.inl hw⟩
        · exact ⟨hq, Or.inr ⟨Or.inr hm, by simp⟩⟩
      · rintro ⟨hq, hw | ⟨h | hm, _⟩⟩
        · exact Or.inr ⟨hq, Or.inl hw⟩
        · exact Or.inl ⟨h.symm, hq⟩
        · exact Or.inr ⟨hq, Or.inr ⟨hm, by simp⟩⟩
    · have h5lt : 5 < a.cells.length := by omega
      have hc5 : a.cells[5]? = some (a.cells.getD 5 ⟨0, 0⟩) := by
        simp [List.getElem?_eq_getElem h5lt]
      have hm : min a.cells.length 6 = 5 + 1 := by omega
      have hi5 : Interior (a.cells.getD 5 ⟨0, 0⟩) := hint _ (List.getElem?_mem hc5)
      rw [if_neg hn, paint_false_iff, foldl_paint_iff, paint_true_iff, hlitc q, hm,
        List.take_succ_cons, List.mem_cons, hc5, mem_take_six a.cells _ q hc5]
      constructor
      · rintro ⟨hnc, (⟨hm5 | h, hq⟩ | ⟨h, hq⟩ | ⟨hq, hw | ⟨hmm, _⟩⟩)⟩
        · exact ⟨hq, Or.inr ⟨Or.inr hm5, fun h' => hnc ⟨Option.some.inj h', hq⟩⟩⟩
        · exact absurd ⟨h, hq⟩ hnc
        · exact ⟨hq, Or.inr ⟨Or.inl h.symm, fun h' => hnc ⟨Option.some.inj h', hq⟩⟩⟩
        · exact ⟨hq, Or.inl hw⟩
        · rcases (mem_take_six a.cells _ q hc5).mp
            (mem_take_mono a.cells _ 6 (by omega) q hmm) with hm5 | h
          · exact ⟨hq, Or.inr ⟨Or.inr hm5, fun h' => hnc ⟨Option.some.inj h', hq⟩⟩⟩
          · exact absurd ⟨h, hq⟩ hnc
      · rintro ⟨hq, hw | ⟨h | hm5, hne5⟩⟩
        · refine ⟨fun h => (hgrid _ hi5).2 (by rw [h.1]; exact hw), ?_⟩
          exact Or.inr (Or.inr ⟨hq, Or.inl hw⟩)
        · exact ⟨fun h' => hne5 (by rw [h'.1]), Or.inr (Or.inl ⟨h.symm, hq⟩)⟩
        · exact ⟨fun h' => hne5 (by rw [h'.1]), Or.inl ⟨Or.inl hm5, hq⟩⟩

theorem good_run (steers : List Steer) : ∀ a : Trail, Good a →
    (Trail.run a steers).clear = true → Good (Trail.run a steers) := by
  induction steers with
  | nil => intro a hg _; exact hg
  | cons t ts ih =>
    intro a hg h
    exact ih (a.tick t) (good_tick a t hg (trail_run_clear ts (a.tick t) h)) h

/-- Once six updates have been made without hitting a set cell, the cells that test as
set are the wall ring and the last six heads, provided the cell that was erased last
(the seventh of the list) is none of them; this is so from the seventh update on, and
at the sixth update when the start cell has not been entered again. -/
theorem good_lit_body (a : Trail) (hg : Good a) (h7 : 7 ≤ a.cells.length)
    (hstart : a.cells.length = 7 → (⟨32, 16⟩ : Position) ∉ a.cells.take 6) (q : Position) :
    a.lit q = true ↔ (InGrid q ∧ OnWall q) ∨ q ∈ a.cells.take 6 := by
  obtain ⟨_, hlast, hint, _, hdist, hlitc⟩ := hg
  have h6lt : 6 < a.cells.length := by omega
  have hc6 : a.cells[6]? = some (a.cells.getD 6 ⟨0, 0⟩) := by
    simp [List.getElem?_eq_getElem h6lt]
  have hnot : a.cells.getD 6 ⟨0, 0⟩ ∉ a.cells.take 6 := by
    by_cases h8 : a.cells.length = 7
    · have hl : a.cells.getD 6 ⟨0, 0⟩ = ⟨32, 16⟩ := by
        rw [List.getLast?_eq_getElem?, h8] at hlast
        exact Option.some.inj (hc6.symm.trans hlast)
      rw [hl]
      exact hstart h8
    · intro hmem
      obtain ⟨i, hi, hq⟩ := (mem_take_iff_getElem? _ _ _).mp hmem
      exact hdist i 6 _ _ hi (by omega) (by omega) hq hc6 rfl
  have hm : min (a.cells.length - 1) 6 = 6 := by omega
  rw [hlitc q, hm, hc6]
  constructor
  · rintro ⟨hq, hw | ⟨hmem, _⟩⟩
    · exact Or.inl ⟨hq, hw⟩
    · exact Or.inr hmem
  · rintro (⟨hq, hw⟩ | hmem)
    · exact ⟨hq, Or.inl hw⟩
    · have hi : Interior q := hint q (List.mem_of_mem_take hmem)
      simp only [Interior] at hi
      refine ⟨by simp only [InGrid]; omega, Or.inr ⟨hmem, fun h => hnot ?_⟩⟩
      rw [Option.some.inj h]
      exact hmem

/-- The cells view of the run `loopSteers`: no update hits a set cell, the head is
back on the start cell (32, 16) after the fourth update, and after the sixth tick that
cell tests as clear. -/
theorem loop_trail :
    (Trail.run Trail.start loopSteers).clear = true ∧
    (Trail.run Trail.start loopSteers).cells.take 6 =
      [⟨32, 18⟩, ⟨32, 17⟩, ⟨32, 16⟩, ⟨32, 15⟩, ⟨33, 15⟩, ⟨33, 16⟩] ∧
    (Trail.run Trail.start loopSteers).lit ⟨32, 16⟩ = false := by
  decide

/-- The cells view of the run `straightSteers`: no update hits a set cell. -/
theorem straight_trail : (Trail.run Trail.start straightSteers).clear = true := by
  decide

/-! ## The branch labels of a run and the tests behind them -/

/-- The branch that a pass of `loop()` reports is the one selected by the tests made on
the head after `update()`. -/
theorem loop_branch (g : Game) (command : Option Char) (rnd : Random) (r : Game × Branch)
    (h : loop g command rnd = some r) :
    ∃ e, headSeen g command = some e ∧ r.2 = e.branch := by
  simp only [loop, Option.bind_eq_bind, Option.bind_eq_some] at h
  obtain ⟨u, hu, g2, _, heq⟩ := h
  have hr2 : r.2 = u.2 := by
    cases Option.some.inj heq
    rfl
  simp only [update_game, Option.bind_eq_bind, Option.bind_eq_some] at hu
  obtain ⟨p, hp, hu⟩ := hu
  have hp' : (dispatch g.player command).update = some p := hp
  refine ⟨⟨decide (p.pos = g.item.pos), test_position g.dev p.pos⟩, by
    simp only [headSeen, hp', Option.map_some'], ?_⟩
  rw [hr2]
  by_cases hhit : p.pos = g.item.pos
  · have hu' := hu
    rw [if_pos hhit] at hu'
    cases Option.some.inj hu'
    simp [Seen.branch, hhit]
  · by_cases hpix : test_position g.dev p.pos = true
    · have hu' := hu
      rw [if_neg hhit, if_pos hpix] at hu'
      cases Option.some.inj hu'
      simp [Seen.branch, hhit, hpix]
    · have hu' := hu
      rw [if_neg hhit, if_neg hpix] at hu'
      cases Option.some.inj hu'
      simp [Seen.branch, hhit, hpix]

/-- The branch labels of a run are the branches selected by the tests of its passes. -/
theorem runLoop_branches (inputs : List TickInput) : ∀ g : Game,
    (runLoop g inputs).1 = (runSeen g inputs).map Seen.branch := by
  induction inputs with
  | nil => intro g; rfl
  | cons inp rest ih =>
    intro g
    cases hl : loop g inp.command inp.rnd with
    | none =>
      have h1 : runLoop g (inp :: rest) = ([], none) := by simp only [runLoop, hl]
      have h2 : runSeen g (inp :: rest) = [] := by
        cases hs : headSeen g inp.command <;> simp only [runSeen, hs, hl]
      rw [h1, h2]
      rfl
    | some r =>
      obtain ⟨e, he, hb⟩ := loop_branch g inp.command inp.rnd r hl
      have h1 : runLoop g (inp :: rest) = (r.2 :: (runLoop r.1 rest).1, (runLoop r.1 rest).2) :=
        by simp only [runLoop, hl]
      have h2 : runSeen g (inp :: rest) = e :: runSeen r.1 rest := by
        simp only [runSeen, he, hl]
      rw [h1, h2, List.map_cons, ← ih r.1, hb]

theorem count_pickup_branch (l : List Seen) :
    (l.map Seen.branch).count Branch.pickup = l.countP (fun e => e.onItem) := by
  induction l with
  | nil => rfl
  | cons e l ih =>
    rw [List.map_cons, List.countP_cons, ← ih]
    obtain ⟨a, b⟩ := e
    cases a <;> cases b <;> simp [Seen.branch, List.count_cons]

theorem gameover_not_mem_branch (l : List Seen)
    (h : ∀ e ∈ l, e.onItem = true ∨ e.onPixel = false) :
    Branch.gameover ∉ l.map Seen.branch := by
  intro hmem
  obtain ⟨e, he, hb⟩ := List.mem_map.mp hmem
  obtain ⟨a, b⟩ := e
  rcases h _ he with h1 | h1
  · have : a = true := h1
    subst this
    simp [Seen.branch] at hb
  · have : b = false := h1
    subst this
    cases a <;> simp [Seen.branch] at hb

/-- In `feastGame` each of the three passes of `feastTicks` finds the head on the
item. -/
theorem feast_seen :
    (∀ e ∈ runSeen feastGame feastTicks, e.onItem = true) ∧
    (runSeen feastGame feastTicks).countP (fun e => e.onItem) = 3 := by
  have hb := runLoop_branches feastTicks feastGame
  rw [feast_branches] at hb
  constructor
  · intro e he
    have hm : e.branch ∈ (runSeen feastGame feastTicks).map Seen.branch :=
      List.mem_map_of_mem _ he
    rw [← hb] at hm
    have hp : e.branch = Branch.pickup := by simpa using hm
    obtain ⟨a, b⟩ := e
    cases a <;> cases b <;> simp [Seen.branch] at hp ⊢
  · rw [← count_pickup_branch, ← hb]
    rfl

/-! ## Claims -/

/-- C1: starting from `reset()` with a fixed `size` of at most `kMaxLength`, after any
interleaving of `turn_left`, `turn_right` and `N` calls of `update()`, the run succeeds
and, for every `i < min N size`, the loop of `render()` reaches after `i + 1`
iterations (symbols `0..i` decoded) a running position `tailpos` equal to the head
position held `i + 1` updates earlier; the full loop of `render()` passes through that
state. -/
theorem tail_reconstruction_eq_head_history (p0 : Player) (s : Int) (ops : List Op)
    (i : Nat) (d : Device) (hfixed : Op.grow ∉ ops) (hs : s ≤ kMaxLength)
    (hi : (i : Int) < min (updateCount ops : Int) s) :
    ∃ p hist tailpos d',
      runHist ({ p0.reset with size := s }, []) ops = some (p, hist) ∧
      p.size = s ∧ hist.length = updateCount ops ∧
      p.renderLoop (i + 1) 0 p.pos d = some (tailpos, d') ∧
      p.renderLoop p.size.toNat 0 p.pos d =
        p.renderLoop (p.size.toNat - (i + 1)) (i + 1) tailpos d' ∧
      hist[i]? = some tailpos := by
  obtain ⟨p, hist, hrun, hlen, htr, hsize, _⟩ :=
    runHist_tracks ops _ [] (tracks_reset p0 s)
  have hsz : p.size = s := hsize hfixed
  have hlen' : hist.length = updateCount ops := by simpa using hlen
  have hiN : i < hist.length := by omega
  have hicap : i < 4 * kMaxLength := by
    have : (kMaxLength : Int) = 464 := rfl
    have : kMaxLength = 464 := rfl
    omega
  have hwalk := htr.2.2 i hiN hicap
  rw [List.getElem?_eq_getElem hiN, ← renderLoop_fst p (i + 1) 0 p.pos d] at hwalk
  obtain ⟨r, hr, hfst⟩ := Option.map_eq_some'.mp hwalk
  refine ⟨p, hist, hist[i], r.2, hrun, hsz, hlen', ?_, ?_, List.getElem?_eq_getElem hiN⟩
  · rw [hr, ← hfst]
  · have hsplit : p.size.toNat = (i + 1) + (p.size.toNat - (i + 1)) := by omega
    conv_lhs => rw [hsplit]
    rw [renderLoop_add, hr, Option.some_bind, hfst, Nat.zero_add]

/-- C1 at `size = 6`, the run update, turn_left, update, turn_right, update and
`i = 2`. -/
theorem tail_reconstruction_eq_head_history_witness :
    Op.grow ∉ [Op.update, Op.turn_left, Op.update, Op.turn_right, Op.update] ∧
    (6 : Int) ≤ kMaxLength ∧
    ((2 : Nat) : Int) <
      min (updateCount [Op.update, Op.turn_left, Op.update, Op.turn_right, Op.update] : Int) 6 ∧
    ∃ p hist tailpos d',
      runHist ({ startPlayer.reset with size := 6 }, [])
        [Op.update, Op.turn_left, Op.update, Op.turn_right, Op.update] = some (p, hist) ∧
      p.size = 6 ∧
      hist.length = updateCount [Op.update, Op.turn_left, Op.update, Op.turn_right, Op.update] ∧
      p.renderLoop (2 + 1) 0 p.pos blankDevice = some (tailpos, d') ∧
      p.renderLoop p.size.toNat 0 p.pos blankDevice =
        p.renderLoop (p.size.toNat - (2 + 1)) (2 + 1) tailpos d' ∧
      hist[2]? = some tailpos :=
  ⟨by decide, by decide, by decide,
    tail_reconstruction_eq_head_history startPlayer 6 _ 2 blankDevice (by decide) (by decide)
      (by decide)⟩

/-- C2: for every player whose array has its declared length and whose heading is in
`0..3`, `update()` succeeds; afterwards symbol 0 is `(direction + 2) mod 4` and, for
every `k` with `k + 1 < 4 * kMaxLength`, symbol `k + 1` is the symbol that was at `k`
before; so only the old last symbol is dropped. -/
theorem update_shifts_symbols (p : Player) (hlen : p.tail.length = kMaxLength)
    (hd : p.direction < 4) :
    ∃ p', p.update = some p' ∧ p'.tail.length = kMaxLength ∧
      symbolAt p'.tail 0 = some ((p.direction + 2) % 4) ∧
      ∀ k, k + 1 < 4 * kMaxLength →
        ∃ c, symbolAt p.tail k = some c ∧ symbolAt p'.tail (k + 1) = some c := by
  obtain ⟨p', _, hup, _, _, _, _, _, hlen', hsym0, hshift⟩ := update_spec p hlen hd
  refine ⟨p', hup, hlen', hsym0, ?_⟩
  intro k hk
  obtain ⟨c, hc⟩ := symbolAt_some p.tail k (by rw [hlen]; omega)
  exact ⟨c, hc, (hshift k hk).trans hc⟩

/-- C2 at the player left by `reset()`. -/
theorem update_shifts_symbols_witness :
    startPlayer.tail.length = kMaxLength ∧ startPlayer.direction < 4 ∧
    ∃ p', startPlayer.update = some p' ∧ p'.tail.length = kMaxLength ∧
      symbolAt p'.tail 0 = some ((startPlayer.direction + 2) % 4) ∧
      ∀ k, k + 1 < 4 * kMaxLength →
        ∃ c, symbolAt startPlayer.tail k = some c ∧ symbolAt p'.tail (k + 1) = some c :=
  ⟨by simp [startPlayer, Player.reset], by decide,
    update_shifts_symbols startPlayer (by simp [startPlayer, Player.reset]) (by decide)⟩

/-- C3, as stated, fails: in `fullGame` the snake has `size = kMaxLength = 464`,
`update_game()` takes the item-pickup branch, and the new size is 465, which is not
`min (size + 1) kMaxLength`. -/
theorem pickup_saturates_counterexample :
    fullGame.player.size = kMaxLength ∧
    ∃ g', update_game fullGame lowRandom = some (g', Branch.pickup) ∧
      g'.player.size = 465 ∧
      g'.player.size ≠ min (fullGame.player.size + 1) kMaxLength := by
  obtain ⟨p, hup, hpos, hsize⟩ := fullGame_update
  refine ⟨rfl, { fullGame with player := p.grow, item := fullGame.item.spawn lowRandom },
    ?_, ?_, ?_⟩
  · rw [update_game_eq fullGame lowRandom p hup, if_pos hpos]
  · simp only [Player.grow, hsize]
    rfl
  · simp only [Player.grow, hsize]
    decide

/-- C3, amended: for every game whose player has an array of the declared length and
a heading in `0..3`, `update_game()` returns; it takes the item-pickup branch exactly
when the head equals the item position after the step, and then the new size is
`size + 1`, with no upper bound applied. -/
theorem pickup_increments_size (g : Game) (rnd : Random)
    (hlen : g.player.tail.length = kMaxLength) (hd : g.player.direction < 4) :
    ∃ p g' b, g.player.update = some p ∧ update_game g rnd = some (g', b) ∧
      (b = Branch.pickup ↔ p.pos = g.item.pos) ∧
      (b = Branch.pickup → g'.player.size = g.player.size + 1) := by
  obtain ⟨p, _, hup, _, _, _, hsize, _⟩ := update_spec g.player hlen hd
  by_cases hhit : p.pos = g.item.pos
  · refine ⟨p, { g with player := p.grow, item := g.item.spawn rnd }, Branch.pickup, hup,
      ?_, ?_, ?_⟩
    · rw [update_game_eq g rnd p hup, if_pos hhit]
    · simp [hhit]
    · intro _
      simp [Player.grow, hsize]
  · by_cases hpix : test_position g.dev p.pos = true
    · refine ⟨p, reset_game { g with player := p, dev := play_gameover g.dev p.size } rnd,
        Branch.gameover, hup, ?_, ?_, ?_⟩
      · rw [update_game_eq g rnd p hup, if_neg hhit, if_pos hpix]
      · simp [hhit]
      · intro h
        cases h
    · refine ⟨p, { g with player := p }, Branch.move, hup, ?_, ?_, ?_⟩
      · rw [update_game_eq g rnd p hup, if_neg hhit, if_neg hpix]
      · simp [hhit]
      · intro h
        cases h

/-- C3 amended, at `fullGame`, where `size = kMaxLength` before the pickup. -/
theorem pickup_increments_size_witness :
    fullGame.player.tail.length = kMaxLength ∧ fullGame.player.direction < 4 ∧
    ∃ p g' b, fullGame.player.update = some p ∧
      update_game fullGame lowRandom = some (g', b) ∧
      (b = Branch.pickup ↔ p.pos = fullGame.item.pos) ∧
      (b = Branch.pickup → g'.player.size = fullGame.player.size + 1) :=
  ⟨by simp [fullGame, startPlayer, Player.reset], by decide,
    pickup_increments_size fullGame lowRandom
      (by simp [fullGame, startPlayer, Player.reset]) (by decide)⟩

/-- C4: in every state reached from `reset()` by `turn_left`, `turn_right`, `update`
and the pickup increment of `size`, `0 ≤ moved ≤ size`; from such a state `update()`
succeeds and sets `moved` to `moved + 1` when `moved < size` and keeps it when
`moved = size`; the two turns and the size increment keep `moved`. -/
theorem moved_bounded_monotone (p0 : Player) (ops : List Op) :
    ∃ p hist, runHist (p0.reset, []) ops = some (p, hist) ∧
      0 ≤ p.moved ∧ p.moved ≤ p.size ∧
      (∃ p', p.update = some p' ∧ (p.moved < p.size → p'.moved = p.moved + 1) ∧
        (p.moved = p.size → p'.moved = p.moved)) ∧
      p.turn_left.moved = p.moved ∧ p.turn_right.moved = p.moved ∧
      p.grow.moved = p.moved := by
  obtain ⟨p, hist, hrun, _, htr, _, hmv⟩ :=
    runHist_tracks ops p0.reset [] (tracks_reset p0 kStartLength)
  obtain ⟨h0, h1⟩ := hmv (by simp [Player.reset, kStartLength])
  obtain ⟨p', hup, _, hmoved, _⟩ := tracks_update p hist htr
  refine ⟨p, hist, hrun, h0, h1, ⟨p', hup, ?_, ?_⟩, rfl, rfl, rfl⟩
  · intro hlt
    rw [hmoved, if_pos hlt]
  · intro heq
    rw [hmoved, if_neg (by omega)]

/-- C5: for every player with heading `d` in `0..3`, `turn_left` sets the heading to
`(d + 3) mod 4` and `turn_right` to `(d + 1) mod 4`; four left turns give the player
back, a left turn followed by a right turn and a right turn followed by a left turn
give the player back, and so does either pair repeated four times. -/
theorem rotation_algebra (p : Player) (hd : p.direction < 4) :
    p.turn_left.direction = (p.direction + 3) % 4 ∧
    p.turn_right.direction = (p.direction + 1) % 4 ∧
    p.turn_left.turn_left.turn_left.turn_left = p ∧
    p.turn_left.turn_right = p ∧ p.turn_right.turn_left = p ∧
    (fun q : Player => q.turn_left.turn_right)^[4] p = p ∧
    (fun q : Player => q.turn_right.turn_left)^[4] p = p := by
  have hlr : ∀ q : Player, q.direction < 4 → q.turn_left.turn_right = q := by
    intro q hq
    cases q
    simp only [Player.turn_left, Player.turn_right, Player.mk.injEq, true_and, and_true] at hq ⊢
    omega
  have hrl : ∀ q : Player, q.direction < 4 → q.turn_right.turn_left = q := by
    intro q hq
    cases q
    simp only [Player.turn_left, Player.turn_right, Player.mk.injEq, true_and, and_true] at hq ⊢
    omega
  refine ⟨rfl, rfl, ?_, hlr p hd, hrl p hd, ?_, ?_⟩
  · cases p
    simp only [Player.turn_left, Player.mk.injEq, true_and, and_true] at hd ⊢
    omega
  · simp only [Function.iterate_succ, Function.iterate_zero, Function.comp, id, hlr p hd]
  · simp only [Function.iterate_succ, Function.iterate_zero, Function.comp, id, hrl p hd]

/-- C5 at the player left by `reset()`, whose heading is 1. -/
theorem rotation_algebra_witness :
    startPlayer.direction < 4 ∧
    startPlayer.turn_left.direction = (startPlayer.direction + 3) % 4 ∧
    startPlayer.turn_right.direction = (startPlayer.direction + 1) % 4 ∧
    startPlayer.turn_left.turn_left.turn_left.turn_left = startPlayer ∧
    startPlayer.turn_left.turn_right = startPlayer ∧
    startPlayer.turn_right.turn_left = startPlayer ∧
    (fun q : Player => q.turn_left.turn_right)^[4] startPlayer = startPlayer ∧
    (fun q : Player => q.turn_right.turn_left)^[4] startPlayer = startPlayer :=
  ⟨by decide, rotation_algebra startPlayer (by decide)⟩

/-- C6: for every random source that keeps the contract of `random(lo, hi)`, the
position chosen by `Item::spawn()` has `1 ≤ x ≤ 62` and `1 ≤ y ≤ 30`, is not on the
wall ring, and tests as clear on the display left by `reset_game()`. -/
theorem spawn_inside_interior (it : Item) (rnd : Random) (h : RandomContract rnd) :
    1 ≤ (it.spawn rnd).pos.x ∧ (it.spawn rnd).pos.x ≤ 62 ∧
    1 ≤ (it.spawn rnd).pos.y ∧ (it.spawn rnd).pos.y ≤ 30 ∧
    ¬ OnWall (it.spawn rnd).pos ∧
    ∀ (g : Game) (rnd' : Random),
      test_position (reset_game g rnd').dev (it.spawn rnd).pos = false := by
  obtain ⟨hx0, hx1⟩ := h 1 63 (by decide)
  obtain ⟨hy0, hy1⟩ := h 1 31 (by decide)
  have hwall : ¬ OnWall (it.spawn rnd).pos := by
    simp only [OnWall, Item.spawn]
    omega
  refine ⟨hx0, by simp only [Item.spawn]; omega, hy0, by simp only [Item.spawn]; omega,
    hwall, ?_⟩
  intro g rnd'
  rw [← Bool.not_eq_true, test_position_reset_game]
  exact fun hq => hwall hq.2

/-- C6 at the random source that always answers with the lower bound. -/
theorem spawn_inside_interior_witness :
    RandomContract lowRandom ∧
    1 ≤ (fullGame.item.spawn lowRandom).pos.x ∧ (fullGame.item.spawn lowRandom).pos.x ≤ 62 ∧
    1 ≤ (fullGame.item.spawn lowRandom).pos.y ∧ (fullGame.item.spawn lowRandom).pos.y ≤ 30 ∧
    ¬ OnWall (fullGame.item.spawn lowRandom).pos ∧
    ∀ (g : Game) (rnd' : Random),
      test_position (reset_game g rnd').dev (fullGame.item.spawn lowRandom).pos = false :=
  ⟨fun lo _ hlt => ⟨le_refl lo, hlt⟩,
    spawn_inside_interior fullGame.item lowRandom (fun lo _ hlt => ⟨le_refl lo, hlt⟩)⟩

/-- C7: in `play_gameover()`, with `score = size - kStartLength` and `h` the integer
stored in slot 0, `EEPROM.put` is called once, with `score`, when `score > h` and is
not called otherwise; afterwards slot 0 holds `score` when `score > h` and `h`
otherwise. -/
theorem highscore_persistence (d : Device) (size : Int) :
    eepromPuts (play_gameover d size).log =
      (if size - kStartLength > d.eeprom then [size - kStartLength] else []) ++
        eepromPuts d.log ∧
    (play_gameover d size).eeprom =
      (if size - kStartLength > d.eeprom then size - kStartLength else d.eeprom) := by
  by_cases h : size - kStartLength > d.eeprom
  · simp [play_gameover, gameover_score, flash_screen, push_to_start, wait_for_input,
      Device.note, Device.paint, Device.clearDisplay, Device.eepromPut, eepromPuts, h]
  · simp [play_gameover, gameover_score, flash_screen, push_to_start, wait_for_input,
      Device.note, Device.paint, Device.clearDisplay, Device.eepromPut, eepromPuts, h]

/-- C8: for every cell `p` of the 64x32 playfield, `test_position(p)` is true right
after `draw_square(p, WHITE)` and false right after `draw_square(p, BLACK)`, and
`draw_square(p, c)` does not change `test_position(q)` for any cell `q ≠ p`. -/
theorem oracle_agrees_with_drawing (d : Device) (p : Position)
    (hx0 : 0 ≤ p.x) (hx1 : p.x < 64) (hy0 : 0 ≤ p.y) (hy1 : p.y < 32) :
    test_position (draw_square d p Color.WHITE) p = true ∧
    test_position (draw_square d p Color.BLACK) p = false ∧
    ∀ (q : Position) (c : Color), q ≠ p →
      test_position (draw_square d p c) q = test_position d q := by
  have hg : InGrid p := ⟨hx0, hx1, hy0, hy1⟩
  refine ⟨?_, ?_, ?_⟩
  · rw [test_position_draw_square, if_pos ⟨rfl, hg⟩]
    rfl
  · rw [test_position_draw_square, if_pos ⟨rfl, hg⟩]
    rfl
  · intro q c hq
    rw [test_position_draw_square, if_neg (fun h => hq h.1.symm)]

/-- C8 at the cell (32, 16) of a clear display. -/
theorem oracle_agrees_with_drawing_witness :
    (0 : Int) ≤ (⟨32, 16⟩ : Position).x ∧ (⟨32, 16⟩ : Position).x < 64 ∧
    (0 : Int) ≤ (⟨32, 16⟩ : Position).y ∧ (⟨32, 16⟩ : Position).y < 32 ∧
    test_position (draw_square blankDevice ⟨32, 16⟩ Color.WHITE) ⟨32, 16⟩ = true ∧
    test_position (draw_square blankDevice ⟨32, 16⟩ Color.BLACK) ⟨32, 16⟩ = false ∧
    ∀ (q : Position) (c : Color), q ≠ ⟨32, 16⟩ →
      test_position (draw_square blankDevice ⟨32, 16⟩ c) q = test_position blankDevice q :=
  ⟨by decide, by decide, by decide, by decide,
    oracle_agrees_with_drawing blankDevice ⟨32, 16⟩ (by decide) (by decide) (by decide)
      (by decide)⟩

/-- C9: for every game whose player has an array of the declared length and a heading
in `0..3`, if the cell `pos + kDirPos[direction]` that the head enters is a wall cell
whose pixel is set and the item is in the interior, then `update()` returns with the
head on that cell, `update_game()` takes the game-over branch, its new calls print the
score `size - kStartLength` right after the text "Score: ", and the player is left
with `size = kStartLength`, `pos = (32,16)`, `direction = 1`, `moved = 0` and an
all-zero array. -/
theorem wall_hit_restarts_round (g : Game) (rnd : Random) (v : Position)
    (hlen : g.player.tail.length = kMaxLength) (hd : g.player.direction < 4)
    (hv : kDirPos[g.player.direction]? = some v)
    (hwall : OnWall (g.player.pos.add v))
    (hpix : test_position g.dev (g.player.pos.add v) = true)
    (hitem : 1 ≤ g.item.pos.x ∧ g.item.pos.x ≤ 62 ∧ 1 ≤ g.item.pos.y ∧ g.item.pos.y ≤ 30) :
    ∃ p g', g.player.update = some p ∧ p.pos = g.player.pos.add v ∧
      p.size = g.player.size ∧
      update_game g rnd = some (g', Branch.gameover) ∧
      (∃ post pre, g'.dev.log =
        post ++ [Call.printInt (g.player.size - kStartLength), Call.printText Text.score] ++
          pre ++ g.dev.log) ∧
      g'.player.size = kStartLength ∧ g'.player.pos = ⟨32, 16⟩ ∧
      g'.player.direction = 1 ∧ g'.player.moved = 0 ∧
      g'.player.tail = List.replicate kMaxLength 0 := by
  obtain ⟨p, v', hup, hv', hpos, _, hsize, _⟩ := update_spec g.player hlen hd
  have hvv : v' = v := Option.some.inj (hv'.symm.trans hv)
  subst hvv
  have hne : ¬ p.pos = g.item.pos := by
    intro heq
    rw [← hpos, heq] at hwall
    simp only [OnWall] at hwall
    omega
  refine ⟨p, reset_game { g with player := p, dev := play_gameover g.dev p.size } rnd,
    hup, hpos, hsize, ?_, ?_, rfl, rfl, rfl, rfl, rfl⟩
  · rw [update_game_eq g rnd p hup, if_neg hne, if_pos (by rw [hpos]; exact hpix)]
  · obtain ⟨l, hl⟩ :=
      reset_game_log { g with player := p, dev := play_gameover g.dev p.size } rnd
    obtain ⟨post, pre, hlog⟩ := play_gameover_log g.dev p.size
    refine ⟨l ++ post, pre, ?_⟩
    rw [hl]
    show l ++ (play_gameover g.dev p.size).log = _
    rw [hlog, hsize]
    simp only [List.append_assoc]

/-- C9 at `wallGame`: the head at (62,16) heading right enters the wall cell (63,16). -/
theorem wall_hit_restarts_round_witness :
    wallGame.player.tail.length = kMaxLength ∧ wallGame.player.direction < 4 ∧
    kDirPos[wallGame.player.direction]? = some ⟨1, 0⟩ ∧
    OnWall (wallGame.player.pos.add ⟨1, 0⟩) ∧
    test_position wallGame.dev (wallGame.player.pos.add ⟨1, 0⟩) = true ∧
    (1 ≤ wallGame.item.pos.x ∧ wallGame.item.pos.x ≤ 62 ∧
      1 ≤ wallGame.item.pos.y ∧ wallGame.item.pos.y ≤ 30) ∧
    ∃ p g', wallGame.player.update = some p ∧ p.pos = wallGame.player.pos.add ⟨1, 0⟩ ∧
      p.size = wallGame.player.size ∧
      update_game wallGame lowRandom = some (g', Branch.gameover) ∧
      (∃ post pre, g'.dev.log =
        post ++ [Call.printInt (wallGame.player.size - kStartLength),
          Call.printText Text.score] ++ pre ++ wallGame.dev.log) ∧
      g'.player.size = kStartLength ∧ g'.player.pos = ⟨32, 16⟩ ∧
      g'.player.direction = 1 ∧ g'.player.moved = 0 ∧
      g'.player.tail = List.replicate kMaxLength 0 :=
  have hpix : test_position wallGame.dev (wallGame.player.pos.add ⟨1, 0⟩) = true :=
    (test_position_reset_game fullGame lowRandom ⟨63, 16⟩).mpr (by decide)
  ⟨by simp [wallGame, startPlayer, Player.reset], by decide, rfl, by decide, hpix, by decide,
    wall_hit_restarts_round wallGame lowRandom ⟨1, 0⟩
      (by simp [wallGame, startPlayer, Player.reset]) (by decide) rfl (by decide) hpix
      (by decide)⟩

/-- C10: starting from a reset player (so `size = kStartLength = 6`), take any run of
passes of `loop()` and read off, pass by pass, the two tests made after `update()`:
head position equals item position, and pixel of the head cell set.  If no pass ends
the round (each pass finds the head on the item or the pixel clear) and the head is
found on the item in `k` passes with `6 + k ≤ kMaxLength`, then every pass completes,
the branches that `update_game()` took are the ones those tests select (so the pickup
branch was taken exactly `k` times), `size = 6 + k`, and the score
`size - kStartLength` is `k`. -/
theorem length_grows_one_per_item (g0 : Game) (inputs : List TickInput)
    (hreset : g0.player = g0.player.reset)
    (hno : ∀ e ∈ runSeen g0 inputs, e.onItem = true ∨ e.onPixel = false)
    (hk : 6 + ((runSeen g0 inputs).countP (fun e => e.onItem) : Int) ≤ kMaxLength) :
    ∃ g, (runLoop g0 inputs).2 = some g ∧ (runSeen g0 inputs).length = inputs.length ∧
      (runLoop g0 inputs).1 = (runSeen g0 inputs).map Seen.branch ∧
      (runLoop g0 inputs).1.count Branch.pickup =
        (runSeen g0 inputs).countP (fun e => e.onItem) ∧
      g.player.size = 6 + ((runSeen g0 inputs).countP (fun e => e.onItem) : Int) ∧
      g.player.size - kStartLength =
        ((runSeen g0 inputs).countP (fun e => e.onItem) : Int) := by
  have hsize0 : g0.player.size = 6 := by rw [hreset]; rfl
  have hlen0 : g0.player.tail.length = kMaxLength := by
    rw [hreset]
    simp [Player.reset]
  have hd0 : g0.player.direction < 4 := by
    rw [hreset]
    exact (by decide : 1 < 4)
  have hcap : (kMaxLength : Int) = 464 := rfl
  have hb := runLoop_branches inputs g0
  have hcount : (runLoop g0 inputs).1.count Branch.pickup =
      (runSeen g0 inputs).countP (fun e => e.onItem) := by
    rw [hb, count_pickup_branch]
  have hno' : Branch.gameover ∉ (runLoop g0 inputs).1 := by
    rw [hb]
    exact gameover_not_mem_branch _ hno
  obtain ⟨g, hfin, hl, hsize⟩ :=
    runLoop_size inputs g0 hlen0 hd0 hno' (by rw [hcount]; omega)
  rw [hsize0, hcount] at hsize
  refine ⟨g, hfin, ?_, hb, hcount, hsize, ?_⟩
  · rw [hb, List.length_map] at hl
    exact hl
  · rw [hsize]
    simp [kStartLength]

/-- C10 at `feastGame` and `feastTicks`: each of the three passes finds the head on
the item, so three items are eaten; the final `size` is 9 and the score is 3. -/
theorem length_grows_one_per_item_witness :
    feastGame.player = feastGame.player.reset ∧
    (∀ e ∈ runSeen feastGame feastTicks, e.onItem = true ∨ e.onPixel = false) ∧
    6 + ((runSeen feastGame feastTicks).countP (fun e => e.onItem) : Int) ≤ kMaxLength ∧
    (runSeen feastGame feastTicks).countP (fun e => e.onItem) = 3 ∧
    (runLoop feastGame feastTicks).1 = [Branch.pickup, Branch.pickup, Branch.pickup] ∧
    (∃ g, (runLoop feastGame feastTicks).2 = some g ∧ g.player.size = 9 ∧
      g.player.size - kStartLength = 3) ∧
    ∃ g, (runLoop feastGame feastTicks).2 = some g ∧
      (runSeen feastGame feastTicks).length = feastTicks.length ∧
      (runLoop feastGame feastTicks).1 = (runSeen feastGame feastTicks).map Seen.branch ∧
      (runLoop feastGame feastTicks).1.count Branch.pickup =
        (runSeen feastGame feastTicks).countP (fun e => e.onItem) ∧
      g.player.size = 6 + ((runSeen feastGame feastTicks).countP (fun e => e.onItem) : Int) ∧
      g.player.size - kStartLength =
        ((runSeen feastGame feastTicks).countP (fun e => e.onItem) : Int) :=
  have hno : ∀ e ∈ runSeen feastGame feastTicks, e.onItem = true ∨ e.onPixel = false :=
    fun e he => Or.inl (feast_seen.1 e he)
  have hk : 6 + ((runSeen feastGame feastTicks).countP (fun e => e.onItem) : Int) ≤
      kMaxLength := by
    rw [feast_seen.2]
    decide
  have hthm := length_grows_one_per_item feastGame feastTicks rfl hno hk
  have hnine : ∃ g, (runLoop feastGame feastTicks).2 = some g ∧ g.player.size = 9 ∧
      g.player.size - kStartLength = 3 := by
    obtain ⟨g, hfin, _, _, _, hsize, hscore⟩ := hthm
    rw [feast_seen.2] at hsize hscore
    exact ⟨g, hfin, hsize, hscore⟩
  ⟨rfl, hno, hk, feast_seen.2, feast_branches, hnine, hthm⟩

/-- C11: for every player state, `turn_left()` and `turn_right()` keep `pos`, `size`,
`moved` and the whole array `tail`; they are total functions, and as operations of a
run they always return a state. -/
theorem turn_changes_heading_only (p : Player) :
    p.turn_left.pos = p.pos ∧ p.turn_left.size = p.size ∧
    p.turn_left.moved = p.moved ∧ p.turn_left.tail = p.tail ∧
    p.turn_right.pos = p.pos ∧ p.turn_right.size = p.size ∧
    p.turn_right.moved = p.moved ∧ p.turn_right.tail = p.tail ∧
    p.apply Op.turn_left = some p.turn_left ∧
    p.apply Op.turn_right = some p.turn_right :=
  ⟨rfl, rfl, rfl, rfl, rfl, rfl, rfl, rfl, rfl, rfl⟩

/-- C12: for every byte other than 'A', 'D', 'W' and 'S', the command dispatch of
`loop()` returns the player unchanged (the item is not touched by the dispatch), and
the whole pass of `loop()` is the pass made when no command is read. -/
theorem unrecognised_command_ignored (g : Game) (c : Char) (rnd : Random)
    (hA : c ≠ 'A') (hD : c ≠ 'D') (hW : c ≠ 'W') (hS : c ≠ 'S') :
    dispatch g.player (some c) = g.player ∧
    ({ g with player := dispatch g.player (some c) } : Game) = g ∧
    loop g (some c) rnd = loop g none rnd := by
  have hdis : dispatch g.player (some c) = g.player := by
    simp only [dispatch, if_neg hA, if_neg hD, if_neg hW, if_neg hS]
  refine ⟨hdis, by rw [hdis], ?_⟩
  simp only [loop, hdis]
  rfl

/-- C12 at the byte 'x'. -/
theorem unrecognised_command_ignored_witness :
    'x' ≠ 'A' ∧ 'x' ≠ 'D' ∧ 'x' ≠ 'W' ∧ 'x' ≠ 'S' ∧
    dispatch feastGame.player (some 'x') = feastGame.player ∧
    ({ feastGame with player := dispatch feastGame.player (some 'x') } : Game) = feastGame ∧
    loop feastGame (some 'x') lowRandom = loop feastGame none lowRandom :=
  ⟨by decide, by decide, by decide, by decide,
    unrecognised_command_ignored feastGame 'x' lowRandom (by decide) (by decide) (by decide)
      (by decide)⟩

/-- C13: for every game whose player has an array of the declared length and a heading
in `0..3`, and for every display, if the cell `pos + kDirPos[direction]` that the head
enters is the item position, then `update_game()` takes the pickup branch: the player
is the updated one with `size + 1`, its head on the old item cell (not reset to the
start cell), the item is respawned, so that its new position is the pair of values
returned by `random(1, 63)` and `random(1, 31)`, and the device is untouched (no
game-over call, same pixels, same log), whatever the pixel at the head cell. -/
theorem pickup_before_collision (g : Game) (rnd : Random) (v : Position)
    (hlen : g.player.tail.length = kMaxLength) (hd : g.player.direction < 4)
    (hv : kDirPos[g.player.direction]? = some v)
    (hhit : g.player.pos.add v = g.item.pos) :
    ∃ p g', g.player.update = some p ∧ p.pos = g.item.pos ∧
      update_game g rnd = some (g', Branch.pickup) ∧
      g'.player = p.grow ∧ g'.player.size = g.player.size + 1 ∧
      g'.player.pos = g.item.pos ∧
      g'.item = g.item.spawn rnd ∧ g'.item.pos = ⟨rnd 1 63, rnd 1 31⟩ ∧
      g'.dev = g.dev ∧ g'.dev.log = g.dev.log := by
  obtain ⟨p, v', hup, hv', hpos, _, hsize, _⟩ := update_spec g.player hlen hd
  have hvv : v' = v := Option.some.inj (hv'.symm.trans hv)
  subst hvv
  refine ⟨p, { g with player := p.grow, item := g.item.spawn rnd }, hup, hpos.trans hhit,
    ?_, rfl, ?_, hpos.trans hhit, rfl, rfl, rfl, rfl⟩
  · rw [update_game_eq g rnd p hup, if_pos (hpos.trans hhit)]
  · show p.size + 1 = _
    rw [hsize]

/-- C13 at `coveredGame`, where the pixel of the cell (33, 16) that the head enters is
set: the size goes from 6 to 7, the head is on (33, 16), and the item moves from
(33, 16) to (1, 1), the answers of `lowRandom`. -/
theorem pickup_before_collision_witness :
    coveredGame.player.tail.length = kMaxLength ∧ coveredGame.player.direction < 4 ∧
    kDirPos[coveredGame.player.direction]? = some ⟨1, 0⟩ ∧
    coveredGame.player.pos.add ⟨1, 0⟩ = coveredGame.item.pos ∧
    test_position coveredGame.dev (coveredGame.player.pos.add ⟨1, 0⟩) = true ∧
    coveredGame.item.pos = ⟨33, 16⟩ ∧ coveredGame.item.pos ≠ ⟨1, 1⟩ ∧
    ∃ p g', coveredGame.player.update = some p ∧ p.pos = coveredGame.item.pos ∧
      update_game coveredGame lowRandom = some (g', Branch.pickup) ∧
      g'.player = p.grow ∧ g'.player.size = 7 ∧
      g'.player.pos = ⟨33, 16⟩ ∧
      g'.item = coveredGame.item.spawn lowRandom ∧ g'.item.pos = ⟨1, 1⟩ ∧
      g'.dev = coveredGame.dev ∧ g'.dev.log = coveredGame.dev.log :=
  ⟨by simp [coveredGame, feastGame, startPlayer, Player.reset], by decide, rfl, rfl,
    by decide, rfl, by decide,
    pickup_before_collision coveredGame lowRandom ⟨1, 0⟩
      (by simp [coveredGame, feastGame, startPlayer, Player.reset]) (by decide) rfl rfl⟩

/-- C16, as stated, fails: the array that `reset()` clears has `kMaxLength = 464`
bytes, not `ceil(kMaxLength * 2 / 8) = 116`, and `update()` on a 116-byte array reads
out of range. -/
theorem tail_capacity_counterexample :
    (kMaxLength * 2 + 7) / 8 = 116 ∧ startPlayer.tail.length = 464 ∧
    startPlayer.tail.length ≠ (kMaxLength * 2 + 7) / 8 ∧
    Player.update { startPlayer with tail := List.replicate ((kMaxLength * 2 + 7) / 8) 0 } =
      none := by
  have hlen : startPlayer.tail.length = kMaxLength := by simp [startPlayer, Player.reset]
  refine ⟨by decide, hlen, ?_, ?_⟩
  · rw [hlen]
    decide
  · exact update_short _ (by
      rw [show (kMaxLength * 2 + 7) / 8 = 116 by decide]
      simp only [List.length_replicate]
      decide)

/-- C16, amended: the array `tail` has exactly `kMaxLength = 464` bytes (the state
left by `reset()` has that many, holding `4 * kMaxLength` symbols); on such an array
`update()` returns and rewrites every byte: byte 0 takes the new symbol and each byte
`j + 1 < kMaxLength` takes the top symbol of the old byte `j`. -/
theorem tail_capacity_is_kMaxLength_bytes (p : Player)
    (hlen : p.tail.length = kMaxLength) (hd : p.direction < 4) :
    kMaxLength = 464 ∧ p.reset.tail.length = kMaxLength ∧
    ∃ p', p.update = some p' ∧ p'.tail.length = kMaxLength ∧
      p'.tail[0]? = some (shiftByte (p.tail.getD 0 0) ((p.direction + 2) % 4)) ∧
      ∀ j, j + 1 < kMaxLength →
        p'.tail[j + 1]? =
          some (shiftByte (p.tail.getD (j + 1) 0) ((p.tail.getD j 0 >>> 6) &&& 3)) := by
  have ht : 0 < p.tail.length := by rw [hlen]; decide
  obtain ⟨t1, a, hrun, ha, hl, hzero, hshift⟩ :=
    update_bytes p.tail ((p.direction + 2) % 4) ht
  have hv : kDirPos[p.direction]? = some (kDirPos.getD p.direction ⟨0, 0⟩) := by
    have : p.direction < kDirPos.length := hd
    simp [List.getElem?_eq_getElem this]
  rw [hlen] at hrun hl hshift
  refine ⟨rfl, by simp [Player.reset], { p with
      tail := t1.set 0 (shiftByte a ((p.direction + 2) % 4))
      pos := p.pos.add (kDirPos.getD p.direction ⟨0, 0⟩)
      moved := if p.moved < p.size then p.moved + 1 else p.moved }, ?_, hl, hzero, hshift⟩
  simp only [Player.update, hrun, ha, hv, Option.bind_eq_bind, Option.some_bind]
  rfl

/-- C16 amended, at the player left by `reset()`. -/
theorem tail_capacity_is_kMaxLength_bytes_witness :
    startPlayer.tail.length = kMaxLength ∧ startPlayer.direction < 4 ∧
    kMaxLength = 464 ∧ startPlayer.reset.tail.length = kMaxLength ∧
    ∃ p', startPlayer.update = some p' ∧ p'.tail.length = kMaxLength ∧
      p'.tail[0]? =
        some (shiftByte (startPlayer.tail.getD 0 0) ((startPlayer.direction + 2) % 4)) ∧
      ∀ j, j + 1 < kMaxLength →
        p'.tail[j + 1]? =
          some (shiftByte (startPlayer.tail.getD (j + 1) 0)
            ((startPlayer.tail.getD j 0 >>> 6) &&& 3)) :=
  ⟨by simp [startPlayer, Player.reset], by decide,
    tail_capacity_is_kMaxLength_bytes startPlayer (by simp [startPlayer, Player.reset])
      (by decide)⟩

/-- C18: for every game and random source, after `reset_game()` and for every cell
`(x, y)` with `0 ≤ x < 64` and `0 ≤ y < 32`, `test_position` is true exactly when
`x = 0`, `x = 63`, `y = 0` or `y = 31`; the start cell (32,16) is clear. -/
theorem reset_game_draws_wall_ring (g : Game) (rnd : Random) (x y : Int)
    (hx0 : 0 ≤ x) (hx1 : x < 64) (hy0 : 0 ≤ y) (hy1 : y < 32) :
    (test_position (reset_game g rnd).dev ⟨x, y⟩ = true ↔
      x = 0 ∨ x = 63 ∨ y = 0 ∨ y = 31) ∧
    test_position (reset_game g rnd).dev ⟨32, 16⟩ = false := by
  constructor
  · rw [test_position_reset_game]
    exact ⟨fun h => h.2, fun h => ⟨⟨hx0, hx1, hy0, hy1⟩, h⟩⟩
  · rw [← Bool.not_eq_true, test_position_reset_game]
    exact fun h => absurd h.2 (by decide)

/-- C18 at the cell (63, 5) on the right wall. -/
theorem reset_game_draws_wall_ring_witness :
    (0 : Int) ≤ 63 ∧ (63 : Int) < 64 ∧ (0 : Int) ≤ 5 ∧ (5 : Int) < 32 ∧
    (test_position (reset_game fullGame lowRandom).dev ⟨63, 5⟩ = true ↔
      (63 : Int) = 0 ∨ (63 : Int) = 63 ∨ (5 : Int) = 0 ∨ (5 : Int) = 31) ∧
    test_position (reset_game fullGame lowRandom).dev ⟨32, 16⟩ = false :=
  ⟨by decide, by decide, by decide, by decide,
    reset_game_draws_wall_ring fullGame lowRandom 63 5 (by decide) (by decide) (by decide)
      (by decide)⟩

/-- C19: `reset()` sets the heading to 1; in every state reached from `reset()` by
`turn_left`, `turn_right`, `update` (and the size increment) the heading is in `0..3`;
and from every such state `update()` pushes as symbol 0 the ordinal
`(direction + 2) mod 4`, whose vector is the negation of the vector of `direction`. -/
theorem heading_stays_ordinal (p0 : Player) (ops : List Op) :
    p0.reset.direction = 1 ∧
    ∃ p hist, runHist (p0.reset, []) ops = some (p, hist) ∧ p.direction < 4 ∧
      ∃ p' v w, p.update = some p' ∧
        symbolAt p'.tail 0 = some ((p.direction + 2) % 4) ∧
        kDirPos[p.direction]? = some v ∧ kDirPos[(p.direction + 2) % 4]? = some w ∧
        w.x = -v.x ∧ w.y = -v.y := by
  obtain ⟨p, hist, hrun, _, htr, _, _⟩ :=
    runHist_tracks ops p0.reset [] (tracks_reset p0 kStartLength)
  obtain ⟨p', _, hup, _, _, _, _, _, _, hsym0, _⟩ := update_spec p htr.1 htr.2.1
  obtain ⟨v, w, hv, hw, hx, hy⟩ := kDirPos_negation p.direction htr.2.1
  exact ⟨rfl, p, hist, hrun, htr.2.1, p', v, w, hup, hsym0, hv, hw, hx, hy⟩

/-- C20: for every player with an array of the declared length, a heading in `0..3`
and `size ≤ kMaxLength` (so in particular when `0 ≤ size ≤ kMaxLength`), `update()` and `render()` return a result, so no read or
write of `tail` or `kDirPos` is out of range; the byte index `i >> 2` of every
iteration `i < size` of `render()` is below `kMaxLength` and every decoded symbol is
below 4. -/
theorem accesses_in_bounds (p : Player) (d : Device)
    (hlen : p.tail.length = kMaxLength) (hd : p.direction < 4)
    (h1 : p.size ≤ kMaxLength) :
    (∃ p', p.update = some p') ∧ (∃ d', p.render d = some d') ∧
    (∀ i : Nat, (i : Int) < p.size → i >>> 2 < kMaxLength) ∧
    (∀ i b : Nat, (b >>> ((i &&& 3) * 2)) &&& 3 < 4) := by
  obtain ⟨p', _, hup, _⟩ := update_spec p hlen hd
  have hcap : (kMaxLength : Int) = 464 := rfl
  refine ⟨⟨p', hup⟩, render_some p d hlen (Or.inr (by omega)), ?_, ?_⟩
  · intro i hi
    rw [Nat.shiftRight_eq_div_pow]
    have : kMaxLength = 464 := rfl
    norm_num
    omega
  · intro i b
    rw [and_three]
    exact Nat.mod_lt _ (by decide)

/-- C20 at the player left by `reset()`. -/
theorem accesses_in_bounds_witness :
    startPlayer.tail.length = kMaxLength ∧ startPlayer.direction < 4 ∧
    startPlayer.size ≤ kMaxLength ∧
    (∃ p', startPlayer.update = some p') ∧ (∃ d', startPlayer.render blankDevice = some d') ∧
    (∀ i : Nat, (i : Int) < startPlayer.size → i >>> 2 < kMaxLength) ∧
    (∀ i b : Nat, (b >>> ((i &&& 3) * 2)) &&& 3 < 4) :=
  ⟨by simp [startPlayer, Player.reset], by decide, by decide,
    accesses_in_bounds startPlayer blankDevice (by simp [startPlayer, Player.reset])
      (by decide) (by decide)⟩

/-- C15: for any two players that agree on `pos`, `size`, `moved` and on the symbols
`0`, ..., `size - 1` of the history, `render()` gives the same result on every device:
the same pixels and the same log, hence the same sequence of `fillRect` calls made by
`draw_square` (same cells, same colours).  Symbols at index `size` and beyond are not
read. -/
theorem render_ignores_stale_symbols (p1 p2 : Player) (d : Device)
    (hpos : p1.pos = p2.pos) (hsize : p1.size = p2.size) (hmoved : p1.moved = p2.moved)
    (hsym : ∀ k : Nat, (k : Int) < p1.size → symbolAt p1.tail k = symbolAt p2.tail k) :
    p1.render d = p2.render d := by
  have hloop : p1.renderLoop p1.size.toNat 0 p1.pos (draw_square d p1.pos Color.WHITE) =
      p2.renderLoop p1.size.toNat 0 p1.pos (draw_square d p1.pos Color.WHITE) :=
    renderLoop_congr p1 p2 _ 0 _ _ (fun k _ hk => hsym k (by omega))
  unfold Player.render
  simp only [hloop, ← hpos, ← hsize, ← hmoved]

/-- C15 at `grownPlayer` and `stalePlayer`, which differ in byte 100 of the array. -/
theorem render_ignores_stale_symbols_witness :
    grownPlayer.pos = stalePlayer.pos ∧ grownPlayer.size = stalePlayer.size ∧
    grownPlayer.moved = stalePlayer.moved ∧
    (∀ k : Nat, (k : Int) < grownPlayer.size →
      symbolAt grownPlayer.tail k = symbolAt stalePlayer.tail k) ∧
    grownPlayer.render blankDevice = stalePlayer.render blankDevice :=
  have hsym : ∀ k : Nat, (k : Int) < grownPlayer.size →
      symbolAt grownPlayer.tail k = symbolAt stalePlayer.tail k := by
    intro k hk
    have hk6 : (k : Int) < 6 := hk
    have hne : 100 ≠ k / 4 := by omega
    simp only [symbolAt, stalePlayer, List.getElem?_set_ne hne]
  ⟨rfl, rfl, rfl, hsym,
    render_ignores_stale_symbols grownPlayer stalePlayer blankDevice rfl rfl rfl hsym⟩

/-- C14, as stated, fails: `shortPlayer` has `moved = size = 2`, and the cells its walk
reconstructs, (31, 16) and (30, 16), are on the playfield and distinct from each other
and from the head (32, 16); yet after `render()` the second reconstructed cell
(30, 16) is clear, because the last cell the walk reaches is the one drawn in black. -/
theorem render_sets_all_cells_counterexample :
    shortPlayer.size ≤ shortPlayer.moved ∧ 1 ≤ shortPlayer.size ∧
    shortPlayer.size = 2 ∧ shortPlayer.pos = ⟨32, 16⟩ ∧
    tailWalk shortPlayer.tail 1 0 shortPlayer.pos = some ⟨31, 16⟩ ∧
    tailWalk shortPlayer.tail 2 0 shortPlayer.pos = some ⟨30, 16⟩ ∧
    ∃ d', shortPlayer.render blankDevice = some d' ∧
      test_position d' ⟨30, 16⟩ = false := by
  obtain ⟨d', hr, hlit⟩ :=
    render_lit shortPlayer blankDevice ⟨30, 16⟩ (by decide) (shortPlayer_walk 2 (le_refl 2))
  refine ⟨by decide, by decide, rfl, rfl, shortPlayer_walk 1 (by decide),
    shortPlayer_walk 2 (le_refl 2), d', hr, ?_⟩
  rw [← Bool.not_eq_true, hlit]
  exact fun h => h.1 ⟨rfl, by decide⟩

/-- C14, amended: for every player with `moved ≥ size` (in particular when
`size ≥ 1`) whose walk reconstructs the
cells `cells 0 = pos`, `cells 1`, ..., `cells size`, all on the playfield and pairwise
distinct, `render()` returns; afterwards the head cell and the first `size - 1`
reconstructed cells are set, the last reconstructed cell `cells size` (the previous
tail end) is clear, it is the only cell that `render()` clears, and cells off the walk
keep their state. -/
theorem render_draws_body_and_erases_tail_end (p : Player) (d : Device)
    (cells : Nat → Position) (hm : p.size ≤ p.moved)
    (hwalk : ∀ k, k ≤ p.size.toNat → tailWalk p.tail k 0 p.pos = some (cells k))
    (hgrid : ∀ k, k ≤ p.size.toNat → InGrid (cells k))
    (hdist : ∀ j k, j ≤ p.size.toNat → k ≤ p.size.toNat → j ≠ k → cells j ≠ cells k) :
    ∃ d', p.render d = some d' ∧ cells 0 = p.pos ∧
      (∀ k, k < p.size.toNat → test_position d' (cells k) = true) ∧
      test_position d' (cells p.size.toNat) = false ∧
      (∀ q, q ≠ cells p.size.toNat → test_position d q = true →
        test_position d' q = true) ∧
      (∀ q, (∀ k, k ≤ p.size.toNat → q ≠ cells k) →
        test_position d' q = test_position d q) := by
  obtain ⟨d', hr, hlit⟩ :=
    render_lit p d (cells p.size.toNat) (by omega) (hwalk _ (le_refl _))
  have h0 : cells 0 = p.pos := by
    have h := hwalk 0 (Nat.zero_le _)
    rw [tailWalk] at h
    exact (Option.some.inj h).symm
  refine ⟨d', hr, h0, ?_, ?_, ?_, ?_⟩
  · intro k hk
    rw [hlit]
    exact ⟨fun h => hdist _ k (le_refl _) (by omega) (by omega) h.1,
      Or.inl ⟨k, by omega, hwalk k (by omega), hgrid k (by omega)⟩⟩
  · rw [← Bool.not_eq_true, hlit]
    exact fun h => h.1 ⟨rfl, hgrid _ (le_refl _)⟩
  · intro q hq hd
    rw [hlit]
    exact ⟨fun h => hq h.1.symm, Or.inr hd⟩
  · intro q hq
    have hiff := hlit q
    have hne : ¬ (cells p.size.toNat = q ∧ InGrid q) :=
      fun h => hq _ (le_refl _) h.1.symm
    have hnot : ¬ ∃ k, k ≤ p.size.toNat ∧ tailWalk p.tail k 0 p.pos = some q ∧ InGrid q := by
      rintro ⟨k, hk, hw, _⟩
      rw [hwalk k hk] at hw
      exact hq k hk (Option.some.inj hw).symm
    cases hd : test_position d q with
    | true => exact hiff.mpr ⟨hne, Or.inr hd⟩
    | false =>
      rw [← Bool.not_eq_true]
      intro h
      rcases (hiff.mp h).2 with h' | h'
      · exact hnot h'
      · rw [hd] at h'
        cases h'

/-- C14 amended, at `shortPlayer` on a clear display. -/
theorem render_draws_body_and_erases_tail_end_witness :
    shortPlayer.size ≤ shortPlayer.moved ∧
    (∀ k, k ≤ shortPlayer.size.toNat →
      tailWalk shortPlayer.tail k 0 shortPlayer.pos = some (shortCells k)) ∧
    (∀ k, k ≤ shortPlayer.size.toNat → InGrid (shortCells k)) ∧
    (∀ j k, j ≤ shortPlayer.size.toNat → k ≤ shortPlayer.size.toNat → j ≠ k →
      shortCells j ≠ shortCells k) ∧
    ∃ d', shortPlayer.render blankDevice = some d' ∧ shortCells 0 = shortPlayer.pos ∧
      (∀ k, k < shortPlayer.size.toNat → test_position d' (shortCells k) = true) ∧
      test_position d' (shortCells shortPlayer.size.toNat) = false ∧
      (∀ q, q ≠ shortCells shortPlayer.size.toNat → test_position blankDevice q = true →
        test_position d' q = true) ∧
      (∀ q, (∀ k, k ≤ shortPlayer.size.toNat → q ≠ shortCells k) →
        test_position d' q = test_position blankDevice q) :=
  have hwalk : ∀ k, k ≤ shortPlayer.size.toNat →
      tailWalk shortPlayer.tail k 0 shortPlayer.pos = some (shortCells k) :=
    fun k hk => shortPlayer_walk k hk
  have hgrid : ∀ k, k ≤ shortPlayer.size.toNat → InGrid (shortCells k) := by
    intro k hk
    have hk2 : k ≤ 2 := hk
    simp only [InGrid, shortCells]
    omega
  have hdist : ∀ j k, j ≤ shortPlayer.size.toNat → k ≤ shortPlayer.size.toNat → j ≠ k →
      shortCells j ≠ shortCells k := by
    intro j k _ _ hjk h
    simp only [shortCells, Position.mk.injEq, and_true] at h
    omega
  ⟨by decide, hwalk, hgrid, hdist,
    render_draws_body_and_erases_tail_end shortPlayer blankDevice shortCells (by decide)
      hwalk hgrid hdist⟩

/-- C17 at the failing input: in the run `loopSteers` from the state left by
`reset_game()` no update hits a set cell, and the head re-enters the start cell
(32, 16) at the fourth update; after the sixth tick that cell is one of the last six
head positions and is not a wall cell, but `render()`, which has just drawn it as a
body cell, erases it as the tail end, so it tests as clear. -/
theorem pixel_buffer_tracks_body_counterexample :
    ∃ s, Body.run (Body.start fullGame lowRandom) loopSteers = some s ∧
      loopSteers.length = 6 ∧ s.player.size = kStartLength ∧ s.clear = true ∧
      (s.player.pos :: s.heads).take 6 =
        [⟨32, 18⟩, ⟨32, 17⟩, ⟨32, 16⟩, ⟨32, 15⟩, ⟨33, 15⟩, ⟨33, 16⟩] ∧
      ¬ OnWall ⟨32, 16⟩ ∧ test_position s.dev ⟨32, 16⟩ = false := by
  obtain ⟨s, hrun, _, hsize, _, _, hcells, hclear, hlit⟩ :=
    sim_run loopSteers _ _ (sim_start fullGame lowRandom)
  obtain ⟨h1, h2, h3⟩ := loop_trail
  refine ⟨s, hrun, rfl, hsize, hclear.trans h1, ?_, by decide, (hlit _).trans h3⟩
  rw [← hcells]
  exact h2

/-- C17 away from the failing input: from the state left by `reset_game()`, every run
of `N ≥ 6` ticks (optional turn, `update()`, `render()`) returns, with `size` still
`kStartLength`; if no update has put the head on a set cell, then after the run the
cells that test as set are exactly the wall ring and the last six head positions, for
every `N ≥ 7`, and for `N = 6` when the start cell (32, 16) is none of those six
positions. -/
theorem pixel_buffer_tracks_body (g : Game) (rnd : Random) (steers : List Steer)
    (hN : 6 ≤ steers.length) :
    ∃ s, Body.run (Body.start g rnd) steers = some s ∧
      s.player.size = kStartLength ∧ s.heads.length = steers.length ∧
      (s.clear = true →
        (steers.length = 6 → (⟨32, 16⟩ : Position) ∉ (s.player.pos :: s.heads).take 6) →
        ∀ q, test_position s.dev q = true ↔
          (InGrid q ∧ OnWall q) ∨ q ∈ (s.player.pos :: s.heads).take 6) := by
  obtain ⟨s, hrun, _, hsize, _, _, hcells, hclear, hlit⟩ :=
    sim_run steers _ _ (sim_start g rnd)
  have hlen := trail_run_length steers Trail.start
  have hlen1 : (Trail.run Trail.start steers).cells.length = steers.length + 1 := by
    rw [hlen]
    show 1 + steers.length = _
    omega
  have hheads : s.heads.length = steers.length := by
    rw [hcells, List.length_cons] at hlen1
    omega
  refine ⟨s, hrun, hsize, hheads, ?_⟩
  intro hcl hstart q
  have hg : Good (Trail.run Trail.start steers) :=
    good_run steers Trail.start good_start (hclear.symm.trans hcl)
  rw [hlit, ← hcells]
  exact good_lit_body _ hg (by omega) (fun h7 => by
    rw [hcells]
    exact hstart (by omega)) q

/-- The statement `pixel_buffer_tracks_body` at seven ticks straight ahead, a run in
which no update hits a set cell. -/
theorem pixel_buffer_tracks_body_witness :
    (∃ s, Body.run (Body.start fullGame lowRandom) straightSteers = some s ∧
      s.clear = true) ∧
    6 ≤ straightSteers.length ∧
    ∃ s, Body.run (Body.start fullGame lowRandom) straightSteers = some s ∧
      s.player.size = kStartLength ∧ s.heads.length = straightSteers.length ∧
      (s.clear = true →
        (straightSteers.length = 6 →
          (⟨32, 16⟩ : Position) ∉ (s.player.pos :: s.heads).take 6) →
        ∀ q, test_position s.dev q = true ↔
          (InGrid q ∧ OnWall q) ∨ q ∈ (s.player.pos :: s.heads).take 6) :=
  have hclear : ∃ s, Body.run (Body.start fullGame lowRandom) straightSteers = some s ∧
      s.clear = true := by
    obtain ⟨s, hrun, _, _, _, _, _, hcl, _⟩ :=
      sim_run straightSteers _ _ (sim_start fullGame lowRandom)
    exact ⟨s, hrun, hcl.trans straight_trail⟩
  ⟨hclear, by decide,
    pixel_buffer_tracks_body fullGame lowRandom straightSteers (by decide)⟩

end SnakeGame
